import Mathlib

/-! # XEdDSA-style signatures over Curve25519 keys (`ecc/SignCurve25519.go`)

A shallow embedding of `sign` and `verify` together with the contracts of the
packages they import (`crypto/sha512`, `edwards25519`, `ed25519`), followed by
theorems about them.

* Go `byte` is `Fin 256`; a Go array `[n]byte` is a `Mathlib.Vector` of bytes,
  a Go slice `[]byte` is a `List` of bytes.
* A field element of `edwards25519` is modelled by its canonical residue
  modulo `2^255 - 19`, a group element by its extended coordinates
  `(X : Y : Z : T)`.
* A pointer argument that the callee writes to is modelled by returning the
  final contents of the pointee next to the result.
-/

set_option maxRecDepth 10000

/-- A Go `byte`. -/
abbrev Byte := Fin 256

/-- A Go array `[n]byte`. -/
abbrev Bytes (n : Nat) := Mathlib.Vector Byte n

/-- Little-endian value of a byte slice. -/
def leNat : List Byte → Nat
  | [] => 0
  | b :: bs => b.val + 256 * leNat bs

/-- The `n`-byte little-endian encoding of `x` (reduced modulo `256^n`). -/
def leBytes : (n : Nat) → Nat → Bytes n
  | 0, _ => Mathlib.Vector.nil
  | n + 1, x => Mathlib.Vector.cons ⟨x % 256, Nat.mod_lt _ (by decide)⟩ (leBytes n (x / 256))

/-- The `n` low-order bytes of `x`, least significant first. -/
def leList (n x : Nat) : List Byte := (leBytes n x).toList

/-- The value of an array read as a little-endian integer. -/
def Bytes.toNat {n : Nat} (a : Bytes n) : Nat := leNat a.toList

/-! ## Package `crypto/sha512`

The hash function SHA-512 (FIPS 180-4) and the `hash.Hash` interface to it. -/

namespace sha512

/-- Modelled from the spec: imported `crypto/sha512`. Round constants of SHA-512 (FIPS 180-4, section 4.2.3). -/
def K : List Nat :=
  [0x428a2f98d728ae22, 0x7137449123ef65cd, 0xb5c0fbcfec4d3b2f, 0xe9b5dba58189dbbc,
   0x3956c25bf348b538, 0x59f111f1b605d019, 0x923f82a4af194f9b, 0xab1c5ed5da6d8118,
   0xd807aa98a3030242, 0x12835b0145706fbe, 0x243185be4ee4b28c, 0x550c7dc3d5ffb4e2,
   0x72be5d74f27b896f, 0x80deb1fe3b1696b1, 0x9bdc06a725c71235, 0xc19bf174cf692694,
   0xe49b69c19ef14ad2, 0xefbe4786384f25e3, 0x0fc19dc68b8cd5b5, 0x240ca1cc77ac9c65,
   0x2de92c6f592b0275, 0x4a7484aa6ea6e483, 0x5cb0a9dcbd41fbd4, 0x76f988da831153b5,
   0x983e5152ee66dfab, 0xa831c66d2db43210, 0xb00327c898fb213f, 0xbf597fc7beef0ee4,
   0xc6e00bf33da88fc2, 0xd5a79147930aa725, 0x06ca6351e003826f, 0x142929670a0e6e70,
   0x27b70a8546d22ffc, 0x2e1b21385c26c926, 0x4d2c6dfc5ac42aed, 0x53380d139d95b3df,
   0x650a73548baf63de, 0x766a0abb3c77b2a8, 0x81c2c92e47edaee6, 0x92722c851482353b,
   0xa2bfe8a14cf10364, 0xa81a664bbc423001, 0xc24b8b70d0f89791, 0xc76c51a30654be30,
   0xd192e819d6ef5218, 0xd69906245565a910, 0xf40e35855771202a, 0x106aa07032bbd1b8,
   0x19a4c116b8d2d0c8, 0x1e376c085141ab53, 0x2748774cdf8eeb99, 0x34b0bcb5e19b48a8,
   0x391c0cb3c5c95a63, 0x4ed8aa4ae3418acb, 0x5b9cca4f7763e373, 0x682e6ff3d6b2b8a3,
   0x748f82ee5defb2fc, 0x78a5636f43172f60, 0x84c87814a1f0ab72, 0x8cc702081a6439ec,
   0x90befffa23631e28, 0xa4506cebde82bde9, 0xbef9a3f7b2c67915, 0xc67178f2e372532b,
   0xca273eceea26619c, 0xd186b8c721c0c207, 0xeada7dd6cde0eb1e, 0xf57d4f7fee6ed178,
   0x06f067aa72176fba, 0x0a637dc5a2c898a6, 0x113f9804bef90dae, 0x1b710b35131c471b,
   0x28db77f523047d84, 0x32caab7b40c72493, 0x3c9ebe0a15c9bebc, 0x431d67c49c100d4c,
   0x4cc5d4becb3e42b6, 0x597f299cfc657e2a, 0x5fcb6fab3ad6faec, 0x6c44198c4a475817]

/-- Modelled from the spec: imported `crypto/sha512`. Initial hash value of SHA-512 (FIPS 180-4, section 5.3.5). -/
def init : List Nat :=
  [0x6a09e667f3bcc908, 0xbb67ae8584caa73b, 0x3c6ef372fe94f82b, 0xa54ff53a5f1d36f1,
   0x510e527fade682d1, 0x9b05688c2b3e6c1f, 0x1f83d9abfb41bd6b, 0x5be0cd19137e2179]

/-- Modelled from the spec: imported `crypto/sha512`. Addition of 64-bit words. -/
def add64 (x y : Nat) : Nat := (x + y) % 2 ^ 64

/-- Modelled from the spec: imported `crypto/sha512`. Rotation of a 64-bit word to the right. -/
def rotr (n x : Nat) : Nat := (x >>> n ||| x <<< (64 - n)) % 2 ^ 64

/-- Modelled from the spec: imported `crypto/sha512`. The function `Ch` of SHA-512 (FIPS 180-4, section 4.1.3). -/
def Ch (x y z : Nat) : Nat := (x &&& y) ^^^ ((x ^^^ (2 ^ 64 - 1)) &&& z)

/-- Modelled from the spec: imported `crypto/sha512`. The function `Maj` of SHA-512. -/
def Maj (x y z : Nat) : Nat := (x &&& y) ^^^ (x &&& z) ^^^ (y &&& z)

/-- Modelled from the spec: imported `crypto/sha512`. The function `Σ0` of SHA-512. -/
def bigSigma0 (x : Nat) : Nat := rotr 28 x ^^^ rotr 34 x ^^^ rotr 39 x

/-- Modelled from the spec: imported `crypto/sha512`. The function `Σ1` of SHA-512. -/
def bigSigma1 (x : Nat) : Nat := rotr 14 x ^^^ rotr 18 x ^^^ rotr 41 x

/-- Modelled from the spec: imported `crypto/sha512`. The function `σ0` of SHA-512. -/
def smallSigma0 (x : Nat) : Nat := rotr 1 x ^^^ rotr 8 x ^^^ x >>> 7

/-- Modelled from the spec: imported `crypto/sha512`. The function `σ1` of SHA-512. -/
def smallSigma1 (x : Nat) : Nat := rotr 19 x ^^^ rotr 61 x ^^^ x >>> 6

/-- Modelled from the spec: imported `crypto/sha512`. Big-endian value of a byte slice. -/
def beNat (l : List Byte) : Nat := l.foldl (fun acc b => 256 * acc + b.val) 0

/-- Modelled from the spec: imported `crypto/sha512`. The `n` low-order bytes of `x`, most significant first. -/
def beList (n x : Nat) : List Byte := (leList n x).reverse

/-- Modelled from the spec: imported `crypto/sha512`. Padding of a message to a multiple of 128 bytes (FIPS 180-4, section 5.1.2). -/
def pad (msg : List Byte) : List Byte :=
  msg ++ [0x80] ++ List.replicate ((239 - msg.length % 128) % 128) 0
    ++ beList 16 (8 * msg.length)

/-- Modelled from the spec: imported `crypto/sha512`. The sixteen 64-bit words of the first 128 bytes of a slice. -/
def blockWords : Nat → List Byte → List Nat
  | 0, _ => []
  | n + 1, l => beNat (l.take 8) :: blockWords n (l.drop 8)

/-- Modelled from the spec: imported `crypto/sha512`. Words `W_16 .. W_79` of the message schedule, from the sliding window of the last
sixteen words. -/
def schedule : Nat → List Nat → List Nat
  | 0, _ => []
  | n + 1, w =>
    let x := add64 (add64 (smallSigma1 (w.getD 14 0)) (w.getD 9 0))
      (add64 (smallSigma0 (w.getD 1 0)) (w.getD 0 0))
    x :: schedule n (w.drop 1 ++ [x])

/-- Modelled from the spec: imported `crypto/sha512`. One round of the compression function on the working variables `a .. h`. -/
def round (v : List Nat) (kw : Nat × Nat) : List Nat :=
  match v with
  | [a, b, c, d, e, f, g, h] =>
    let t1 := add64 (add64 (add64 h (bigSigma1 e)) (add64 (Ch e f g) kw.1)) kw.2
    let t2 := add64 (bigSigma0 a) (Maj a b c)
    [add64 t1 t2, a, b, c, add64 d t1, e, f, g]
  | _ => v

/-- Modelled from the spec: imported `crypto/sha512`. The compression function: the hash value after one more 128-byte block. -/
def compress (h : List Nat) (block : List Byte) : List Nat :=
  let w := blockWords 16 block
  List.zipWith add64 h ((K.zip (w ++ schedule 64 w)).foldl round h)

/-- Modelled from the spec: imported `crypto/sha512`. The hash value after all complete 128-byte blocks of a slice. -/
def blocks : Nat → List Nat → List Byte → List Nat
  | 0, h, _ => h
  | n + 1, h, l => blocks n (compress h (l.take 128)) (l.drop 128)

/-- Modelled from the spec: imported `crypto/sha512`. The 64-byte digest as a list. -/
def sumList (msg : List Byte) : List Byte :=
  let m := pad msg
  ((blocks (m.length / 128) init m).map (beList 8)).flatten

/-- Modelled from the spec: imported `crypto/sha512`. Go `sha512.Sum512`: the SHA-512 digest of a message. -/
def Sum512 (msg : List Byte) : Bytes 64 :=
  leBytes 64 (leNat (sumList msg))

/-- Modelled from the spec: imported `crypto/sha512`. The state of a Go `hash.Hash` made by `sha512.New`: what has been written since it
was made or last reset. -/
structure digest where
  written : List Byte

/-- Modelled from the spec: imported `crypto/sha512`. Go `sha512.New`. -/
def New : digest := ⟨[]⟩

/-- Modelled from the spec: imported `crypto/sha512`. Go `(hash.Hash).Write`. -/
def digest.Write (d : digest) (b : List Byte) : digest := ⟨d.written ++ b⟩

/-- Modelled from the spec: imported `crypto/sha512`. Go `(hash.Hash).Reset`. -/
def digest.Reset (_d : digest) : digest := ⟨[]⟩

/-- Modelled from the spec: imported `crypto/sha512`. Go `(hash.Hash).Sum` called on an empty slice backed by a 64-byte array: the array
holds the digest of what has been written; the state is unchanged. -/
def digest.Sum (d : digest) : Bytes 64 := Sum512 d.written

end sha512

/-! ## Package `edwards25519`

The package is imported by the source file and is not part of the repository.  The
definitions below state the contracts of its operations that `sign`, `verify` and
`ed25519.Verify` call: field arithmetic modulo `p`, scalar arithmetic modulo `L`, point
arithmetic and the encoding of points.  A `FieldElement` stands for its residue modulo
`p`, so the limb representation of the package is not part of the model. -/

namespace edwards25519

/-- Modelled from the spec: imported `edwards25519`. The field prime `2^255 - 19`. -/
def p : Nat := 2 ^ 255 - 19

/-- Modelled from the spec: imported `edwards25519`. The order of the base point, `2^252 + 27742317777372353535851937790883648493`. -/
def L : Nat := 2 ^ 252 + 27742317777372353535851937790883648493

/-- Modelled from the spec: imported `edwards25519`. A field element, as its residue modulo `p`. -/
abbrev FieldElement := Nat

/-- Modelled from the spec: imported `edwards25519`. The curve constant `d = -121665/121666`. -/
def d : FieldElement :=
  37095705934669439343138083508754565189542113879843219016388785533085940283555

/-- Modelled from the spec: imported `edwards25519`. The constant `d2 = 2 * d`. -/
def d2 : FieldElement :=
  16295367250680780974490674513165176452449235426866156013048779062215315747161

/-- Modelled from the spec: imported `edwards25519`. The constant `SqrtM1`, a square root of `-1`. -/
def SqrtM1 : FieldElement :=
  19681161376707505956807079304988542015446066515923890162744021073123829784752

/-- Modelled from the spec: imported `edwards25519`. Modular exponentiation by squaring; `fuel` bounds the bit length of the exponent. -/
def powMod (m : Nat) : Nat → Nat → Nat → Nat
  | 0, _, _ => 1 % m
  | fuel + 1, b, e =>
    if e = 0 then 1 % m
    else
      let h := powMod m fuel (b * b % m) (e / 2)
      if e % 2 = 1 then b * h % m else h

/-- Modelled from the spec: imported `edwards25519`. `FeZero`: the field element `0`. -/
def FeZero : FieldElement := 0

/-- Modelled from the spec: imported `edwards25519`. `FeOne`: the field element `1`. -/
def FeOne : FieldElement := 1

/-- Modelled from the spec: imported `edwards25519`. `FeAdd`: addition modulo `p`. -/
def FeAdd (a b : FieldElement) : FieldElement := (a + b) % p

/-- Modelled from the spec: imported `edwards25519`. `FeSub`: subtraction modulo `p`. -/
def FeSub (a b : FieldElement) : FieldElement := (a + (p - b % p)) % p

/-- Modelled from the spec: imported `edwards25519`. `FeNeg`: negation modulo `p`. -/
def FeNeg (a : FieldElement) : FieldElement := (p - a % p) % p

/-- Modelled from the spec: imported `edwards25519`. `FeMul`: multiplication modulo `p`. -/
def FeMul (a b : FieldElement) : FieldElement := a * b % p

/-- Modelled from the spec: imported `edwards25519`. `FeSquare`: squaring modulo `p`. -/
def FeSquare (a : FieldElement) : FieldElement := a * a % p

/-- Modelled from the spec: imported `edwards25519`. `FeInvert` raises to the power `p - 2`, so it sends `0` to `0`. -/
def FeInvert (z : FieldElement) : FieldElement := powMod p 255 (z % p) (p - 2)

/-- Modelled from the spec: imported `edwards25519`. The helper `fePow22523` raises to the power `(p - 5) / 8 = 2^252 - 3`. -/
def fePow22523 (z : FieldElement) : FieldElement := powMod p 255 (z % p) (2 ^ 252 - 3)

/-- Modelled from the spec: imported `edwards25519`. `FeFromBytes` reads the low 255 bits of the array, little-endian: the top bit of the
last byte is ignored and no value below `2^255` is rejected. -/
def FeFromBytes (s : Bytes 32) : FieldElement := s.toNat % 2 ^ 255 % p

/-- Modelled from the spec: imported `edwards25519`. `FeToBytes` writes the canonical (fully reduced) little-endian encoding. -/
def FeToBytes (h : FieldElement) : Bytes 32 := leBytes 32 (h % p)

/-- Modelled from the spec: imported `edwards25519`. `FeIsNegative`: the low bit of the canonical encoding. -/
def FeIsNegative (f : FieldElement) : Byte := (FeToBytes f).get 0 &&& 1

/-- Modelled from the spec: imported `edwards25519`. `FeIsNonZero`: `1` when the element is not zero, else `0`. -/
def FeIsNonZero (f : FieldElement) : Nat := if f % p = 0 then 0 else 1

/-- Modelled from the spec: imported `edwards25519`. A group element in extended coordinates: `x = X/Z`, `y = Y/Z`, `x * y = T/Z`.  It
stands for `ProjectiveGroupElement` as well, which has no `T`. -/
structure ExtendedGroupElement where
  X : FieldElement
  Y : FieldElement
  Z : FieldElement
  T : FieldElement
deriving DecidableEq, Repr

/-- Modelled from the spec: imported `edwards25519`. The neutral element `(0 : 1 : 1 : 0)`. -/
def ExtendedGroupElement.Zero : ExtendedGroupElement := ⟨0, 1, 1, 0⟩

/-- Modelled from the spec: imported `edwards25519`. Negation of a point, as `ed25519.Verify` does it: `FeNeg` on `X` and on `T`. -/
def ExtendedGroupElement.Neg (P : ExtendedGroupElement) : ExtendedGroupElement :=
  ⟨FeNeg P.X, P.Y, P.Z, FeNeg P.T⟩

/-- Modelled from the spec: imported `edwards25519`. The addition law of the twisted Edwards curve `-x^2 + y^2 = 1 + d x^2 y^2` in extended
coordinates. -/
def geAdd (P Q : ExtendedGroupElement) : ExtendedGroupElement :=
  let A := FeMul (FeSub P.Y P.X) (FeSub Q.Y Q.X)
  let B := FeMul (FeAdd P.Y P.X) (FeAdd Q.Y Q.X)
  let C := FeMul (FeMul P.T d2) Q.T
  let D := FeMul (FeAdd P.Z P.Z) Q.Z
  let E := FeSub B A
  let F := FeSub D C
  let G := FeAdd D C
  let H := FeAdd B A
  ⟨FeMul E F, FeMul G H, FeMul F G, FeMul E H⟩

/-- Modelled from the spec: imported `edwards25519`. Scalar multiplication by doubling and adding; `fuel` bounds the bit length of the
scalar. -/
def scalarMult : Nat → Nat → ExtendedGroupElement → ExtendedGroupElement
  | 0, _, _ => ExtendedGroupElement.Zero
  | fuel + 1, n, P =>
    if n = 0 then ExtendedGroupElement.Zero
    else
      let h := scalarMult fuel (n / 2) P
      if n % 2 = 1 then geAdd (geAdd h h) P else geAdd h h

/-- Modelled from the spec: imported `edwards25519`. The base point, with `y = 4/5` and `x` even. -/
def basePoint : ExtendedGroupElement :=
  ⟨15112221349535400772501151409588531511454012693041857206046113283949847762202,
   46316835694926478169428394003475163141307993866256225615783033603165251855960,
   1,
   46827403850823179245072216630277197565144205554125654976674165829533817101731⟩

/-- Modelled from the spec: imported `edwards25519`. `GeScalarMultBase`: fixed-base
multiplication.  The package recodes the scalar `a`, read little-endian from 32 bytes, into
64 signed radix-16 digits and adds the table entry of each digit; the table holds the
digits `-8 .. 8`, and a digit outside it selects the neutral element.  Under the package's
precondition `a[31] <= 127` every digit is in the table and the result is `a * B`.  The
top digit is `(a + 0x88..8) / 16^63`, the other 63 digits have the value
`(a + 0x88..8) mod 16^63 - 0x88..8`; when the top digit exceeds `8` the result is the
multiple of `B` by the value of the other 63 digits. -/
def GeScalarMultBase (a : Bytes 32) : ExtendedGroupElement :=
  let bias := (16 ^ 63 - 1) / 15 * 8
  let top := (a.toNat + bias) / 16 ^ 63
  if top ≤ 8 then scalarMult 256 a.toNat basePoint
  else
    let low := (a.toNat + bias) % 16 ^ 63
    if bias ≤ low then scalarMult 256 (low - bias) basePoint
    else (scalarMult 256 (bias - low) basePoint).Neg

/-- Modelled from the spec: imported `edwards25519`. `GeDoubleScalarMultVartime`: `a * A + b * B`;
`ed25519.Verify` calls it with scalars below `2^253`. -/
def GeDoubleScalarMultVartime (a : Bytes 32) (A : ExtendedGroupElement) (b : Bytes 32) :
    ExtendedGroupElement :=
  geAdd (scalarMult 256 a.toNat A) (scalarMult 256 b.toNat basePoint)

/-- Modelled from the spec: imported `edwards25519`. `ToBytes`: the canonical encoding of `y = Y/Z`, with the parity of `x = X/Z` in the
top bit of the last byte. -/
def ExtendedGroupElement.ToBytes (P : ExtendedGroupElement) : Bytes 32 :=
  let recip := FeInvert P.Z
  let x := FeMul P.X recip
  let y := FeMul P.Y recip
  let s := FeToBytes y
  s.set 31 (s.get 31 ^^^ (FeIsNegative x <<< 7))

/-- Modelled from the spec: imported `edwards25519`. `FromBytes`: decoding of a point; `none` when the package returns `false`. -/
def ExtendedGroupElement.FromBytes (s : Bytes 32) : Option ExtendedGroupElement :=
  let Y := FeFromBytes s
  let Z := FeOne
  let u := FeSquare Y
  let v := FeMul u d
  let u := FeSub u Z
  let v := FeAdd v Z
  let v3 := FeMul (FeSquare v) v
  let X := FeMul (FeMul (FeSquare v3) v) u
  let X := fePow22523 X
  let X := FeMul (FeMul X v3) u
  let vxx := FeMul (FeSquare X) v
  let fix (X : FieldElement) : ExtendedGroupElement :=
    let X := if FeIsNegative X ≠ s.get 31 >>> 7 then FeNeg X else X
    ⟨X, Y, Z, FeMul X Y⟩
  if FeIsNonZero (FeSub vxx u) = 1 then
    if FeIsNonZero (FeAdd vxx u) = 1 then none
    else some (fix (FeMul X SqrtM1))
  else some (fix X)

/-- Modelled from the spec: imported `edwards25519`. `ScReduce`: the 64-byte little-endian integer reduced modulo `L`. -/
def ScReduce (s : Bytes 64) : Bytes 32 := leBytes 32 (s.toNat % L)

/-- Modelled from the spec: imported `edwards25519`. `ScMulAdd`: `(a * b + c) mod L`. -/
def ScMulAdd (a b c : Bytes 32) : Bytes 32 :=
  leBytes 32 ((a.toNat * b.toNat + c.toNat) % L)

end edwards25519

/-! ## Package `ed25519`

The verification routine that `verify` delegates to. -/

namespace ed25519

open edwards25519

/-- Modelled from the spec: imported `ed25519`. `Verify` on a 32-byte key and a 64-byte
signature is the standard Edwards verification: the package's guard on the three top bits
of the last byte, then the key must decode and the encoding of `h * (-A) + S * B` must
equal the first half of the signature, for `h = Hash(R ‖ A ‖ m) mod L`.  The routine has
no test of `S` against the group order: the specification leaves that test to a policy
and states that the active verification path is without it. -/
def Verify (publicKey : Bytes 32) (message : List Byte) (sig : Bytes 64) : Bool :=
  if sig.get 63 &&& 224 ≠ 0 then false
  else
    match ExtendedGroupElement.FromBytes publicKey with
    | none => false
    | some A =>
      let A := A.Neg
      let h := sha512.New
      let h := h.Write (sig.toList.take 32)
      let h := h.Write publicKey.toList
      let h := h.Write message
      let digest := h.Sum
      let hReduced := ScReduce digest
      let s : Bytes 32 := ⟨sig.toList.drop 32, by simp⟩
      let R := GeDoubleScalarMultVartime hReduced A s
      let checkR := R.ToBytes
      decide (sig.toList.take 32 = checkR.toList)

end ed25519

/-! ## `ecc/SignCurve25519.go` -/

namespace ecc

open edwards25519

/-- The local array `diversifier` of `sign`. -/
def diversifier : Bytes 32 :=
  ⟨[0xFE, 0xFF, 0xFF, 0xFF, 0xFF, 0xFF, 0xFF, 0xFF,
    0xFF, 0xFF, 0xFF, 0xFF, 0xFF, 0xFF, 0xFF, 0xFF,
    0xFF, 0xFF, 0xFF, 0xFF, 0xFF, 0xFF, 0xFF, 0xFF,
    0xFF, 0xFF, 0xFF, 0xFF, 0xFF, 0xFF, 0xFF, 0xFF], rfl⟩

/-- Go `sign`: the signature of `message` under `privateKey` with the seed `random`.  The
two `copy` calls into the fresh array `signature` make it `encodedR` followed by `s`. -/
def sign (privateKey : Bytes 32) (message : List Byte) (random : Bytes 64) : Bytes 64 :=
  -- Calculate Ed25519 public key from Curve25519 private key
  let A := GeScalarMultBase privateKey
  let publicKey := A.ToBytes
  -- Calculate r
  let hash := sha512.New
  let hash := hash.Write diversifier.toList
  let hash := hash.Write privateKey.toList
  let hash := hash.Write message
  let hash := hash.Write random.toList
  let r := hash.Sum
  -- Calculate R
  let rReduced := ScReduce r
  let R := GeScalarMultBase rReduced
  let encodedR := R.ToBytes
  -- Calculate S = r + SHA2-512(R || A_ed || msg) * a  (mod L)
  let hash := hash.Reset
  let hash := hash.Write encodedR.toList
  let hash := hash.Write publicKey.toList
  let hash := hash.Write message
  let hramDigest := hash.Sum
  let hramDigestReduced := ScReduce hramDigest
  let s := ScMulAdd hramDigestReduced privateKey rReduced
  let signature : Bytes 64 := encodedR.append s
  signature.set 63 (signature.get 63 ||| (publicKey.get 31 &&& 0x80))

/-- Go `verify`: the result, and the contents of the caller's array behind the pointer
`signature` when the call returns. -/
def verify (publicKey : Bytes 32) (message : List Byte) (signature : Bytes 64) :
    Bool × Bytes 64 :=
  let publicKey := publicKey.set 31 (publicKey.get 31 &&& 0x7F)
  let montX := FeFromBytes publicKey
  let one := FeOne
  let montXMinusOne := FeSub montX one
  let montXPlusOne := FeAdd montX one
  let montXPlusOne := FeInvert montXPlusOne
  let edY := FeMul montXMinusOne montXPlusOne
  let A_ed := FeToBytes edY
  let A_ed := A_ed.set 31 (A_ed.get 31 ||| (signature.get 63 &&& 0x80))
  let signature := signature.set 63 (signature.get 63 &&& 0x7F)
  (ed25519.Verify A_ed message signature, signature)

end ecc

/-! ## Notions of the specification -/

namespace ecc

open edwards25519

/-- The scalar `S` of a signature: bytes 32 to 63 read as a little-endian integer, with
the top bit of byte 63 cleared. -/
def scalarS (sig : Bytes 64) : Nat := leNat (sig.toList.drop 32) % 2 ^ 255

/-- A signature with the top bit of its last byte cleared. -/
def clearTopBit (sig : Bytes 64) : Bytes 64 := sig.set 63 (sig.get 63 &&& 0x7F)

/-- The nonce of the specification: `Hash(D ‖ a ‖ m ‖ z) mod L`, where `D` is the byte
`0xFE` followed by 31 bytes `0xFF`. -/
def specNonce (a : Bytes 32) (m : List Byte) (z : Bytes 64) : Nat :=
  (sha512.Sum512 ((0xFE :: List.replicate 31 0xFF) ++ a.toList ++ m ++ z.toList)).toNat % L

/-- The encoded nonce point of the specification, `encode(rReduced * BasePoint)`. -/
def specEncodedR (a : Bytes 32) (m : List Byte) (z : Bytes 64) : Bytes 32 :=
  (scalarMult 256 (specNonce a m z) basePoint).ToBytes

/-- The challenge of the specification, `Hash(EncodedR ‖ A ‖ m) mod L`, where `A` is the
encoding of the point that the fixed-base multiplication returns for `a`; that point is
`a * BasePoint` when `a[31] <= 127`. -/
def specChallenge (a : Bytes 32) (m : List Byte) (z : Bytes 64) : Nat :=
  (sha512.Sum512 ((specEncodedR a m z).toList
    ++ (GeScalarMultBase a).ToBytes.toList ++ m)).toNat % L

/-- A clamped private scalar, as `a[0] &= 248; a[31] &= 127; a[31] |= 64` leaves it. -/
def Clamped (a : Bytes 32) : Prop := a.get 0 &&& 7 = 0 ∧ a.get 31 &&& 0xC0 = 0x40

instance (a : Bytes 32) : Decidable (Clamped a) := by
  unfold Clamped
  infer_instance

/-- The Montgomery public key of a private scalar: the canonical encoding of
`u = (1 + y) / (1 - y)` for the Edwards `y` of `a * BasePoint`. -/
def montgomeryPublicKey (a : Bytes 32) : Bytes 32 :=
  let A := GeScalarMultBase a
  let y := FeMul A.Y (FeInvert A.Z)
  FeToBytes (FeMul (FeAdd FeOne y) (FeInvert (FeSub FeOne y)))

/-- The Edwards `y` the specification's mapper assigns to a Montgomery key:
`(montX - 1) * invert(montX + 1) mod p` for `montX` the low 255 bits of the key. -/
def specEdY (pk : Bytes 32) : Nat :=
  let montX := pk.toNat % 2 ^ 255 % p
  (montX + (p - 1)) * FeInvert (montX + 1) % p

/-- The Edwards key the specification verifies against: the canonical encoding of
`specEdY` with the top bit of its last byte set equal to the top bit of `sig[63]`. -/
def specEdwardsKey (pk : Bytes 32) (sig : Bytes 64) : Bytes 32 :=
  let enc := leBytes 32 (specEdY pk)
  enc.set 31 ((enc.get 31 &&& 0x7F) ||| (sig.get 63 &&& 0x80))

end ecc

/-! ## Concrete inputs -/

namespace ecc

/-- A clamped private scalar. -/
def exampleKey : Bytes 32 :=
  ⟨[0, 2, 3, 4, 5, 6, 7, 8, 9, 10, 11, 12, 13, 14, 15, 16,
    17, 18, 19, 20, 21, 22, 23, 24, 25, 26, 27, 28, 29, 30, 31, 96], rfl⟩

/-- The message `"abc"`. -/
def exampleMessage : List Byte := [97, 98, 99]

/-- The all-zero random seed. -/
def exampleSeed : Bytes 64 := Mathlib.Vector.replicate 64 0

/-- The Montgomery public key of `exampleKey`. -/
def examplePublicKey : Bytes 32 :=
  ⟨[7, 163, 124, 188, 20, 32, 147, 200, 183, 85, 220, 27, 16, 232, 108, 180,
    38, 55, 74, 209, 106, 168, 83, 237, 11, 223, 192, 178, 184, 109, 28, 124], rfl⟩

/-- The signature of `exampleMessage` under `exampleKey` with `exampleSeed`. -/
def exampleSignature : Bytes 64 :=
  ⟨[3, 184, 69, 32, 35, 184, 196, 226, 137, 100, 104, 139, 160, 81, 161, 54,
    244, 219, 99, 146, 138, 170, 155, 215, 54, 233, 55, 71, 93, 11, 194, 178,
    72, 211, 162, 44, 186, 1, 40, 135, 138, 54, 186, 208, 39, 24, 67, 159,
    198, 145, 34, 3, 176, 192, 193, 135, 143, 29, 39, 22, 22, 44, 99, 138], rfl⟩

/-- The key `examplePublicKey` with the top bit of its last byte set. -/
def examplePublicKeyTopBit : Bytes 32 :=
  ⟨[7, 163, 124, 188, 20, 32, 147, 200, 183, 85, 220, 27, 16, 232, 108, 180,
    38, 55, 74, 209, 106, 168, 83, 237, 11, 223, 192, 178, 184, 109, 28, 252], rfl⟩

/-- The encoding of `p - 1`, the Montgomery `u = -1`. -/
def excludedKey : Bytes 32 := leBytes 32 (edwards25519.p - 1)

/-- The encoding of the neutral element, then the scalar `0`, with the top bit of the last
byte set. -/
def forgedSignature : Bytes 64 :=
  Mathlib.Vector.set
    (Mathlib.Vector.append edwards25519.ExtendedGroupElement.Zero.ToBytes (leBytes 32 0))
    63 0x80

/-- An array that is not a clamped scalar: 31 zero bytes, then `0x90`. -/
def unclampedKey : Bytes 32 := leBytes 32 (9 * 16 ^ 63)

end ecc

/-! ## The twisted Edwards curve over a field -/

namespace Edwards

variable {F : Type} [Field F]

/-- The curve equation `-x^2 + y^2 = 1 + d x^2 y^2`. -/
def OnCurve (d : F) (P : F × F) : Prop :=
  -P.1 ^ 2 + P.2 ^ 2 = 1 + d * P.1 ^ 2 * P.2 ^ 2

/-- The addition law in affine coordinates. -/
def add (d : F) (P Q : F × F) : F × F :=
  ((P.1 * Q.2 + P.2 * Q.1) / (1 + d * P.1 * Q.1 * P.2 * Q.2),
   (P.2 * Q.2 + P.1 * Q.1) / (1 - d * P.1 * Q.1 * P.2 * Q.2))

/-- The opposite of a point. -/
def neg (P : F × F) : F × F := (-P.1, P.2)

/-- The neutral point. -/
def zero : F × F := (0, 1)

/-- The multiple `n * P`. -/
def smul (d : F) : ℕ → F × F → F × F
  | 0, _ => zero
  | n + 1, P => add d (smul d n P) P

/-- The addition law is complete: `2` is invertible, `-1` is a square and `d` is not. -/
def Complete (d : F) : Prop :=
  (2 : F) ≠ 0 ∧ (∃ i : F, i ^ 2 = -1) ∧ ∀ z : F, z ^ 2 ≠ d

end Edwards

/-! ## The model over the prime field -/

namespace edwards25519

/-- The prime field of `2^255 - 19` elements. -/
abbrev Fp : Type := ZMod p

/-- The curve constant `d` in the prime field. -/
def dF : Fp := (d : Fp)

/-- The base point in affine coordinates over the prime field. -/
def baseF : Fp × Fp := ((basePoint.X : Fp), (basePoint.Y : Fp))

/-- An extended group element of the model represents the affine point `Q`. -/
def Rep (P : ExtendedGroupElement) (Q : Fp × Fp) : Prop :=
  (P.Z : Fp) ≠ 0 ∧ (P.X : Fp) = Q.1 * (P.Z : Fp) ∧ (P.Y : Fp) = Q.2 * (P.Z : Fp)
    ∧ (P.T : Fp) * (P.Z : Fp) = (P.X : Fp) * (P.Y : Fp)

/-- The 32-byte encoding of an affine point: the canonical encoding of `y` with the
parity of `x` in the top bit of the last byte. -/
def encodeF (Q : Fp × Fp) : Bytes 32 :=
  (leBytes 32 Q.2.val).set 31
    ((leBytes 32 Q.2.val).get 31 ^^^ (((leBytes 32 Q.1.val).get 0 &&& 1) <<< 7))

end edwards25519

/-! ## The mapper and the hash inputs -/

namespace ecc

open edwards25519

/-- The `edY` that `verify` computes from the field element `montX` of the key:
`(montX - 1) * invert(montX + 1)`. -/
def edY (montX : FieldElement) : FieldElement :=
  let one := FeOne
  let montXMinusOne := FeSub montX one
  let montXPlusOne := FeAdd montX one
  let montXPlusOne := FeInvert montXPlusOne
  FeMul montXMinusOne montXPlusOne

/-- The Edwards-to-Montgomery map of the specification, `montX = (1 + y) * invert(1 - y)`. -/
def specMontX (y : FieldElement) : FieldElement :=
  FeMul (FeAdd FeOne y) (FeInvert (FeSub FeOne y))

/-- The bytes that `sign` has written to its hasher when it takes the nonce digest `r`. -/
def nonceInput (privateKey : Bytes 32) (message : List Byte) (random : Bytes 64) :
    List Byte :=
  let hash := sha512.New
  let hash := hash.Write diversifier.toList
  let hash := hash.Write privateKey.toList
  let hash := hash.Write message
  let hash := hash.Write random.toList
  hash.written

/-- The bytes that `sign` has written to its hasher, after the `Reset`, when it takes the
challenge digest `hramDigest`, for an encoded nonce point and an encoded public key. -/
def challengeInput (encodedR publicKey : Bytes 32) (message : List Byte) : List Byte :=
  let hash := sha512.New
  let hash := hash.Reset
  let hash := hash.Write encodedR.toList
  let hash := hash.Write publicKey.toList
  let hash := hash.Write message
  hash.written

end ecc
/-! ## Bytes and little-endian integers -/

theorem byte_and_7F (b : Byte) : (b &&& 0x7F).val = b.val % 128 := by
  revert b; decide

theorem byte_and_80 (b : Byte) : (b &&& 0x80).val = 128 * (b.val / 128) := by
  revert b; decide

theorem byte_and_80_cases (b : Byte) : b &&& 0x80 = 0 ∨ b &&& 0x80 = 0x80 := by
  revert b; decide

theorem byte_or_and_80 (a b : Byte) (h : a.val < 128) :
    (a ||| (b &&& 0x80)) &&& 0x80 = b &&& 0x80 := by
  have h0 : ∀ a : Byte, a.val < 128 → (a ||| 0) &&& 0x80 = 0 := by decide
  have h1 : ∀ a : Byte, a.val < 128 → (a ||| 0x80) &&& 0x80 = 0x80 := by decide
  rcases byte_and_80_cases b with hb | hb <;> rw [hb]
  · exact h0 a h
  · exact h1 a h

theorem leBytes_toList_succ (n x : Nat) :
    (leBytes (n + 1) x).toList =
      ⟨x % 256, Nat.mod_lt _ (by decide)⟩ :: (leBytes n (x / 256)).toList := by
  rw [leBytes, Mathlib.Vector.toList_cons]

theorem leNat_leBytes (n x : Nat) : leNat (leBytes n x).toList = x % 256 ^ n := by
  induction n generalizing x with
  | zero => simp [leBytes, leNat, Nat.mod_one]
  | succ n ih =>
    rw [leBytes_toList_succ, leNat, ih, pow_succ, Nat.mul_comm (256 ^ n) 256, Nat.mod_mul]

theorem leNat_lt (l : List Byte) : leNat l < 256 ^ l.length := by
  induction l with
  | nil => simp [leNat]
  | cons b bs ih =>
    have := b.isLt
    simp only [leNat, List.length_cons, pow_succ]
    omega

theorem Bytes.toNat_lt {n : Nat} (a : Bytes n) : a.toNat < 256 ^ n := by
  have := leNat_lt a.toList
  rwa [Mathlib.Vector.toList_length] at this

theorem Bytes.toNat_leBytes (n x : Nat) : (leBytes n x).toNat = x % 256 ^ n :=
  leNat_leBytes n x

theorem leBytes_leNat (l : List Byte) : (leBytes l.length (leNat l)).toList = l := by
  induction l with
  | nil => rfl
  | cons b bs ih =>
    have hb := b.isLt
    rw [List.length_cons, leBytes_toList_succ]
    have h1 : (leNat (b :: bs)) % 256 = b.val := by simp only [leNat]; omega
    have h2 : (leNat (b :: bs)) / 256 = leNat bs := by simp only [leNat]; omega
    rw [h2, ih]
    congr 1
    exact Fin.ext h1

theorem leBytes_toNat {n : Nat} (a : Bytes n) : leBytes n a.toNat = a := by
  apply Mathlib.Vector.eq
  have h := leBytes_leNat a.toList
  have hl : a.toList.length = n := a.toList_length
  rw [Bytes.toNat]
  revert h
  generalize a.toList = l at hl ⊢
  subst hl
  exact id

theorem leBytes_get (n x : Nat) (i : Fin n) :
    ((leBytes n x).get i).val = x / 256 ^ i.val % 256 := by
  induction n generalizing x with
  | zero => exact i.elim0
  | succ n ih =>
    rw [leBytes]
    refine Fin.cases ?_ (fun j => ?_) i
    · simp
    · rw [Mathlib.Vector.get_cons_succ, ih]
      simp [pow_succ, Nat.div_div_eq_div_mul, Nat.mul_comm]

/-! ## Arrays -/

theorem Bytes.get_append_63 (v w : Bytes 32) :
    (Mathlib.Vector.append v w : Bytes 64).get 63 = w.get 31 := by
  rcases v with ⟨lv, hv⟩
  rcases w with ⟨lw, hw⟩
  have h63 : 63 < (lv ++ lw).length := by simp [hv, hw]
  have h31 : 31 < lw.length := by omega
  show (lv ++ lw)[63] = lw[31]
  rw [List.getElem_append_right (by omega)]
  simp [hv]

theorem Bytes.toList_append (v w : Bytes 32) :
    (Mathlib.Vector.append v w : Bytes 64).toList = v.toList ++ w.toList :=
  Mathlib.Vector.toList_append v w

theorem Bytes.set_set {n : Nat} (v : Bytes n) (i : Fin n) (a b : Byte) :
    (v.set i a).set i b = v.set i b := by
  apply Mathlib.Vector.ext
  intro j
  by_cases h : i = j
  · subst h; simp [Mathlib.Vector.get_set_same]
  · simp [Mathlib.Vector.get_set_of_ne h]

theorem Bytes.set_get {n : Nat} (v : Bytes n) (i : Fin n) : v.set i (v.get i) = v := by
  apply Mathlib.Vector.ext
  intro j
  by_cases h : i = j
  · subst h; simp [Mathlib.Vector.get_set_same]
  · simp [Mathlib.Vector.get_set_of_ne h]

/-! ## Scalars -/

namespace edwards25519

theorem L_lt : L < 2 ^ 253 := by decide

theorem L_pos : 0 < L := by decide

theorem p_lt : p < 2 ^ 255 := by decide

theorem p_pos : 0 < p := by decide

theorem mod_L_toNat (x : Nat) : (leBytes 32 (x % L)).toNat = x % L := by
  rw [Bytes.toNat_leBytes]
  apply Nat.mod_eq_of_lt
  have h1 : x % L < L := Nat.mod_lt _ L_pos
  have h2 := L_lt
  have h3 : (2 : Nat) ^ 253 < 256 ^ 32 := by decide
  omega

theorem ScReduce_toNat (s : Bytes 64) : (ScReduce s).toNat = s.toNat % L :=
  mod_L_toNat _

theorem mod_L_top_byte (x : Nat) : ((leBytes 32 (x % L)).get 31).val < 32 := by
  rw [leBytes_get]
  have h1 : x % L < L := Nat.mod_lt _ L_pos
  have h2 := L_lt
  have h3 : (256 : Nat) ^ (31 : Fin 32).val = 2 ^ 248 := by decide
  rw [h3]
  have h4 : (2 : Nat) ^ 253 = 32 * 2 ^ 248 := by decide
  have h5 : x % L / 2 ^ 248 < 32 := by
    apply Nat.div_lt_of_lt_mul
    omega
  omega

end edwards25519

/-! ## The signer -/

namespace ecc

open edwards25519

theorem diversifier_toList : diversifier.toList = 0xFE :: List.replicate 31 0xFF := by
  decide

/-- On a scalar below `2^255` the fixed-base multiplication returns the exact multiple. -/
theorem GeScalarMultBase_of_lt (a : Bytes 32) (h : a.toNat < 2 ^ 255) :
    GeScalarMultBase a = scalarMult 256 a.toNat basePoint := by
  have hb : (16 ^ 63 - 1) / 15 * 8 < 16 ^ 63 := by decide
  have h2 : (2 : Nat) ^ 255 = 16 ^ 63 * 8 := by decide
  have htop : (a.toNat + (16 ^ 63 - 1) / 15 * 8) / 16 ^ 63 ≤ 8 := by
    apply Nat.le_of_lt_succ
    apply Nat.div_lt_of_lt_mul
    omega
  rw [GeScalarMultBase]
  exact if_pos htop

theorem GeScalarMultBase_mod_L (x : Nat) :
    GeScalarMultBase (leBytes 32 (x % L)) = scalarMult 256 (x % L) basePoint := by
  have h1 : x % L < L := Nat.mod_lt _ L_pos
  have h2 := L_lt
  have h3 : (2 : Nat) ^ 253 < 2 ^ 255 := by decide
  rw [GeScalarMultBase_of_lt _ (by rw [mod_L_toNat]; omega), mod_L_toNat]

theorem sign_eq (a : Bytes 32) (m : List Byte) (z : Bytes 64) :
    sign a m z =
      ((specEncodedR a m z).append
          (leBytes 32 ((specChallenge a m z * a.toNat + specNonce a m z) % L)) : Bytes 64).set 63
        ((leBytes 32 ((specChallenge a m z * a.toNat + specNonce a m z) % L)).get 31
          ||| ((GeScalarMultBase a).ToBytes.get 31 &&& 0x80)) := by
  have hr : ScReduce (sha512.Sum512 (diversifier.toList ++ a.toList ++ m ++ z.toList))
      = leBytes 32 (specNonce a m z) := by
    rw [ScReduce, diversifier_toList]; rfl
  have hn : (leBytes 32 (specNonce a m z)).toNat = specNonce a m z := mod_L_toNat _
  have hR : (GeScalarMultBase (leBytes 32 (specNonce a m z))).ToBytes = specEncodedR a m z := by
    rw [specNonce, GeScalarMultBase_mod_L]; rfl
  simp only [sign, sha512.New, sha512.digest.Write, sha512.digest.Reset, sha512.digest.Sum,
    List.nil_append, ScMulAdd, hr, hR, hn, Bytes.get_append_63]
  simp only [ScReduce_toNat, specChallenge]

end ecc

/-! ## The last byte of a 32-byte array -/

theorem leNat_append (l₁ l₂ : List Byte) :
    leNat (l₁ ++ l₂) = leNat l₁ + 256 ^ l₁.length * leNat l₂ := by
  induction l₁ with
  | nil => simp [leNat]
  | cons b bs ih =>
    rw [List.cons_append, leNat, ih, leNat, List.length_cons, pow_succ]; ring

theorem list_init_last (l : List Byte) (h : l.length = 32) :
    ∃ init x, init.length = 31 ∧ l = init ++ [x] := by
  have hne : l ≠ [] := by intro h0; simp [h0] at h
  exact ⟨l.dropLast, l.getLast hne, by simp [h], (List.dropLast_append_getLast hne).symm⟩

theorem Bytes.exists_init_last (a : Bytes 32) :
    ∃ init x, ∃ h : (init ++ [x]).length = 32, init.length = 31 ∧ a = ⟨init ++ [x], h⟩ := by
  rcases a with ⟨l, hl⟩
  obtain ⟨init, x, hi, rfl⟩ := list_init_last l hl
  exact ⟨init, x, hl, hi, rfl⟩

theorem Bytes.get_31_mk (init : List Byte) (x : Byte) (h : (init ++ [x]).length = 32)
    (hi : init.length = 31) : Mathlib.Vector.get (⟨init ++ [x], h⟩ : Bytes 32) 31 = x := by
  have h31 : 31 < (init ++ [x]).length := by omega
  show (init ++ [x])[31] = x
  rw [List.getElem_append_right (by omega)]
  simp [hi]

theorem Bytes.set_31_mk (init : List Byte) (x b : Byte) (h : (init ++ [x]).length = 32)
    (hi : init.length = 31) :
    (Mathlib.Vector.set (⟨init ++ [x], h⟩ : Bytes 32) 31 b).toList = init ++ [b] := by
  rw [Mathlib.Vector.toList_set]
  show (init ++ [x]).set 31 b = init ++ [b]
  rw [List.set_append]
  simp [hi]

theorem Bytes.toNat_mk (init : List Byte) (x : Byte) (h : (init ++ [x]).length = 32)
    (hi : init.length = 31) :
    Bytes.toNat (⟨init ++ [x], h⟩ : Bytes 32) = leNat init + 2 ^ 248 * x.val := by
  show leNat (init ++ [x]) = _
  rw [leNat_append, hi]
  simp [leNat]

theorem Bytes.toNat_split_31 (a : Bytes 32) :
    a.toNat = a.toNat % 2 ^ 248 + 2 ^ 248 * (a.get 31).val := by
  obtain ⟨init, x, h, hi, rfl⟩ := a.exists_init_last
  rw [Bytes.get_31_mk init x h hi, Bytes.toNat_mk init x h hi]
  have h2 := leNat_lt init
  rw [hi] at h2
  have h3 : (256 : Nat) ^ 31 = 2 ^ 248 := by decide
  omega

theorem Bytes.toNat_set_31 (a : Bytes 32) (b : Byte) :
    Bytes.toNat (a.set 31 b) = a.toNat % 2 ^ 248 + 2 ^ 248 * b.val := by
  obtain ⟨init, x, h, hi, rfl⟩ := a.exists_init_last
  have h0 : Bytes.toNat (Mathlib.Vector.set (⟨init ++ [x], h⟩ : Bytes 32) 31 b)
      = leNat init + 2 ^ 248 * b.val := by
    show leNat (Mathlib.Vector.set (⟨init ++ [x], h⟩ : Bytes 32) 31 b).toList = _
    rw [Bytes.set_31_mk init x b h hi, leNat_append, hi]
    simp [leNat]
  have h2 := leNat_lt init
  rw [hi] at h2
  have h3 : (256 : Nat) ^ 31 = 2 ^ 248 := by decide
  rw [Bytes.toNat_mk init x h hi, h0]
  omega

/-- Clearing the top bit of the last byte keeps the low 255 bits of the value. -/
theorem Bytes.toNat_clear_top (a : Bytes 32) :
    Bytes.toNat (a.set 31 (a.get 31 &&& 0x7F)) = a.toNat % 2 ^ 255 := by
  rw [Bytes.toNat_set_31, byte_and_7F]
  have h := a.toNat_split_31
  have hb := (a.get 31).isLt
  omega

/-- The last byte of an array whose value is below `2^255` has its top bit clear. -/
theorem Bytes.get_31_lt (a : Bytes 32) (h : a.toNat < 2 ^ 255) : (a.get 31).val < 128 := by
  have h1 := a.toNat_split_31
  omega

/-- An array whose last byte is at most `127` has a value below `2^255`. -/
theorem Bytes.toNat_lt_of_get_31 (a : Bytes 32) (h : (a.get 31).val ≤ 127) :
    a.toNat < 2 ^ 255 := by
  have h1 := a.toNat_split_31
  omega

/-! ## The two halves of a 64-byte array -/

theorem Bytes.exists_append (sig : Bytes 64) :
    ∃ v w : Bytes 32, sig = (Mathlib.Vector.append v w : Bytes 64) := by
  rcases sig with ⟨l, hl⟩
  refine ⟨⟨l.take 32, by simp [hl]⟩, ⟨l.drop 32, by simp [hl]⟩, ?_⟩
  apply Mathlib.Vector.eq
  rw [Bytes.toList_append]
  exact (List.take_append_drop 32 l).symm

theorem Bytes.take_append (v w : Bytes 32) :
    (Mathlib.Vector.append v w : Bytes 64).toList.take 32 = v.toList := by
  rw [Bytes.toList_append]
  exact List.take_left' v.toList_length

theorem Bytes.drop_append (v w : Bytes 32) :
    (Mathlib.Vector.append v w : Bytes 64).toList.drop 32 = w.toList := by
  rw [Bytes.toList_append]
  exact List.drop_left' v.toList_length

theorem Bytes.set_append_63 (v w : Bytes 32) (b : Byte) :
    Mathlib.Vector.set (Mathlib.Vector.append v w : Bytes 64) 63 b
      = (Mathlib.Vector.append v (w.set 31 b) : Bytes 64) := by
  apply Mathlib.Vector.eq
  rw [Mathlib.Vector.toList_set, Bytes.toList_append, Bytes.toList_append,
    Mathlib.Vector.toList_set]
  show (v.toList ++ w.toList).set 63 b = v.toList ++ w.toList.set 31 b
  rw [List.set_append]
  simp [v.toList_length]

theorem Bytes.mk_drop_append (v w : Bytes 32)
    (h : ((Mathlib.Vector.append v w : Bytes 64).toList.drop 32).length = 32) :
    (⟨(Mathlib.Vector.append v w : Bytes 64).toList.drop 32, h⟩ : Bytes 32) = w := by
  apply Mathlib.Vector.eq
  exact Bytes.drop_append v w

theorem byte_or_and_7F (a b : Byte) (h : a.val < 128) :
    (a ||| (b &&& 0x80)) &&& 0x7F = a := by
  have h0 : ∀ a : Byte, a.val < 128 → (a ||| 0) &&& 0x7F = a := by decide
  have h1 : ∀ a : Byte, a.val < 128 → (a ||| 0x80) &&& 0x7F = a := by decide
  rcases byte_and_80_cases b with hb | hb <;> rw [hb]
  · exact h0 a h
  · exact h1 a h

theorem byte_and_7F_of_lt (a : Byte) (h : a.val < 128) : a &&& 0x7F = a := by
  revert a; decide

theorem byte_and_80_of_lt (a : Byte) (h : a.val < 128) : a &&& 0x80 = 0 := by
  revert a; decide

theorem byte_and_7F_and_224 (a : Byte) (h : 32 ≤ (a &&& 0x7F).val) :
    (a &&& 0x7F) &&& 224 ≠ 0 := by
  revert a; decide

theorem byte_xor_80_and_7F (a : Byte) : (a ^^^ 0x80) &&& 0x7F = a &&& 0x7F := by
  revert a; decide

theorem byte_and_7F_or_and_80 (a b : Byte) :
    ((a &&& 0x7F) ||| (b &&& 0x80)) &&& 0x80 = b &&& 0x80 :=
  byte_or_and_80 _ _ (by rw [byte_and_7F]; omega)

/-! ## The signature layout -/

namespace ecc

open edwards25519

theorem clearTopBit_append (v w : Bytes 32) :
    clearTopBit (Mathlib.Vector.append v w : Bytes 64)
      = (Mathlib.Vector.append v (w.set 31 (w.get 31 &&& 0x7F)) : Bytes 64) := by
  rw [clearTopBit, Bytes.get_append_63, Bytes.set_append_63]

theorem scalarS_append (v w : Bytes 32) :
    scalarS (Mathlib.Vector.append v w : Bytes 64) = w.toNat % 2 ^ 255 := by
  rw [scalarS, Bytes.drop_append]; rfl

theorem scalarS_clearTopBit (sig : Bytes 64) : scalarS (clearTopBit sig) = scalarS sig := by
  obtain ⟨v, w, rfl⟩ := sig.exists_append
  rw [clearTopBit_append, scalarS_append, scalarS_append, Bytes.toNat_clear_top,
    Nat.mod_mod]

theorem clearTopBit_sign (a : Bytes 32) (m : List Byte) (z : Bytes 64) :
    clearTopBit (sign a m z) =
      (Mathlib.Vector.append (specEncodedR a m z)
        (leBytes 32 ((specChallenge a m z * a.toNat + specNonce a m z) % L)) : Bytes 64) := by
  rw [clearTopBit, sign_eq, Mathlib.Vector.get_set_same, Bytes.set_set,
    byte_or_and_7F _ _ (Nat.lt_trans (mod_L_top_byte _) (by decide)),
    ← Bytes.get_append_63 (specEncodedR a m z), Bytes.set_get]

theorem sign_take (a : Bytes 32) (m : List Byte) (z : Bytes 64) :
    (sign a m z).toList.take 32 = (specEncodedR a m z).toList := by
  rw [sign_eq, Bytes.set_append_63, Bytes.take_append]

theorem scalarS_sign (a : Bytes 32) (m : List Byte) (z : Bytes 64) :
    scalarS (sign a m z) = (specChallenge a m z * a.toNat + specNonce a m z) % L := by
  rw [← scalarS_clearTopBit, clearTopBit_sign, scalarS_append, mod_L_toNat]
  apply Nat.mod_eq_of_lt
  have h1 : (specChallenge a m z * a.toNat + specNonce a m z) % L < L := Nat.mod_lt _ L_pos
  have h2 := L_lt
  have h3 : (2 : Nat) ^ 253 < 2 ^ 255 := by decide
  omega

theorem sign_get_63 (a : Bytes 32) (m : List Byte) (z : Bytes 64) :
    (sign a m z).get 63 &&& 0x80 = (GeScalarMultBase a).ToBytes.get 31 &&& 0x80 := by
  rw [sign_eq, Mathlib.Vector.get_set_same,
    byte_or_and_80 _ _ (Nat.lt_trans (mod_L_top_byte _) (by decide))]

end ecc

/-! ## The verifier -/

namespace edwards25519

theorem FeInvert_mod (x : Nat) : FeInvert (x % p) = FeInvert x := by
  rw [FeInvert, FeInvert, Nat.mod_mod]

theorem FeToBytes_toNat (x : Nat) : (FeToBytes x).toNat = x % p := by
  rw [FeToBytes, Bytes.toNat_leBytes]
  apply Nat.mod_eq_of_lt
  have h1 : x % p < p := Nat.mod_lt _ p_pos
  have h2 := p_lt
  have h3 : (2 : Nat) ^ 255 < 256 ^ 32 := by decide
  omega

/-- The canonical encoding of a field element has the top bit of its last byte clear. -/
theorem FeToBytes_top (x : Nat) : ((FeToBytes x).get 31).val < 128 := by
  apply Bytes.get_31_lt
  rw [FeToBytes_toNat]
  have h1 : x % p < p := Nat.mod_lt _ p_pos
  have h2 := p_lt
  omega

end edwards25519

namespace ecc

open edwards25519

theorem specEdY_lt (pk : Bytes 32) : specEdY pk < p := Nat.mod_lt _ p_pos

theorem FeToBytes_specEdY (pk : Bytes 32) : FeToBytes (specEdY pk) = leBytes 32 (specEdY pk) := by
  rw [FeToBytes, Nat.mod_eq_of_lt (specEdY_lt pk)]

/-- The field element that `verify` computes from the key is `specEdY`. -/
theorem verify_edY (pk : Bytes 32) :
    FeMul (FeSub (FeFromBytes (pk.set 31 (pk.get 31 &&& 0x7F))) FeOne)
      (FeInvert (FeAdd (FeFromBytes (pk.set 31 (pk.get 31 &&& 0x7F))) FeOne)) = specEdY pk := by
  have h1 : (1 : Nat) % p = 1 := by decide
  rw [FeFromBytes, Bytes.toNat_clear_top, Nat.mod_mod, FeOne, FeSub, FeAdd, FeInvert_mod,
    FeMul, h1, Nat.mod_mul_mod, specEdY]

/-- The key that `verify` hands to `ed25519.Verify` is `specEdwardsKey`. -/
theorem verify_key (pk : Bytes 32) (sig : Bytes 64) :
    (FeToBytes (specEdY pk)).set 31 ((FeToBytes (specEdY pk)).get 31 ||| (sig.get 63 &&& 0x80))
      = specEdwardsKey pk sig := by
  have h := byte_and_7F_of_lt _ (FeToBytes_top (specEdY pk))
  rw [FeToBytes_specEdY] at h ⊢
  rw [specEdwardsKey]
  simp only [h]

theorem verify_eq (pk : Bytes 32) (m : List Byte) (sig : Bytes 64) :
    verify pk m sig = (ed25519.Verify (specEdwardsKey pk sig) m (clearTopBit sig),
      clearTopBit sig) := by
  rw [verify, clearTopBit]
  simp only [verify_edY, verify_key]

end ecc

/-! ## Consequences for the verifier -/

namespace ecc

open edwards25519

/-- When `verify` returns, the caller's array holds the signature with the top bit of
byte 63 cleared. -/
theorem verify_buffer (pk : Bytes 32) (m : List Byte) (sig : Bytes 64) :
    (verify pk m sig).2 = clearTopBit sig :=
  congrArg Prod.snd (verify_eq pk m sig)

theorem verify_result (pk : Bytes 32) (m : List Byte) (sig : Bytes 64) :
    (verify pk m sig).1 = ed25519.Verify (specEdwardsKey pk sig) m (clearTopBit sig) :=
  congrArg Prod.fst (verify_eq pk m sig)

theorem FeInvert_p : FeInvert p = 0 := by decide!

theorem specEdY_excluded (pk : Bytes 32) (h : pk.toNat % 2 ^ 255 % p = p - 1) :
    specEdY pk = 0 := by
  rw [specEdY]
  simp only [h]
  have hp : p - 1 + 1 = p := by decide
  rw [hp, FeInvert_p, Nat.mul_zero, Nat.zero_mod]

theorem specEdwardsKey_excluded (pk : Bytes 32) (sig : Bytes 64)
    (h : pk.toNat % 2 ^ 255 % p = p - 1) :
    specEdwardsKey pk sig = (leBytes 32 0).set 31 (sig.get 63 &&& 0x80) := by
  rw [specEdwardsKey, specEdY_excluded pk h]
  have hb : ∀ b : Byte, (Mathlib.Vector.get (leBytes 32 0) 31 &&& 0x7F) ||| (b &&& 0x80)
      = b &&& 0x80 := by decide
  simp only [hb]

theorem specEdwardsKey_congr (pk pk' : Bytes 32) (sig : Bytes 64)
    (h : pk'.toNat % 2 ^ 255 % p = pk.toNat % 2 ^ 255 % p) :
    specEdwardsKey pk' sig = specEdwardsKey pk sig := by
  rw [specEdwardsKey, specEdwardsKey, specEdY, specEdY]
  simp only [h]

end ecc

/-! ## Primality of the field prime and of the group order -/

namespace edwards25519

theorem powMod_eq (m : Nat) (fuel b e : Nat) (h : e < 2 ^ fuel) :
    powMod m fuel b e = b ^ e % m := by
  induction fuel generalizing b e with
  | zero =>
    have : e = 0 := by simpa using h
    subst this
    simp [powMod]
  | succ n ih =>
    rw [powMod]
    by_cases he : e = 0
    · subst he; simp
    · rw [if_neg he]
      have h2 : e / 2 < 2 ^ n := by
        rw [pow_succ] at h
        omega
      simp only [ih _ _ h2]
      have hsq : (b * b % m) ^ (e / 2) % m = (b * b) ^ (e / 2) % m := by
        rw [Nat.pow_mod, Nat.mod_mod, ← Nat.pow_mod]
      rw [hsq, ← pow_two, ← pow_mul]
      by_cases h1 : e % 2 = 1
      · rw [if_pos h1]
        have : e = 2 * (e / 2) + 1 := by omega
        conv_rhs => rw [this, pow_succ, Nat.mul_comm, Nat.mul_mod]
        rw [Nat.mul_mod b, Nat.mod_mod, ← Nat.mul_mod]
      · rw [if_neg h1]
        have : e = 2 * (e / 2) := by omega
        rw [← this]

/-- Pratt certificate step -/
theorem pratt (n a fuel : Nat) (fs : List Nat) (hn1 : 1 < n) (hfs : ∀ q ∈ fs, q.Prime)
    (hprod : fs.prod = n - 1) (hfuel : n ≤ 2 ^ fuel)
    (h1 : powMod n fuel a (n - 1) = 1)
    (h2 : ∀ q ∈ fs, powMod n fuel a ((n - 1) / q) ≠ 1) : n.Prime := by
  have cast_eq : ∀ e, ((a ^ e % n : Nat) : ZMod n) = (a : ZMod n) ^ e := by
    intro e
    rw [ZMod.natCast_mod, Nat.cast_pow]
  have one_iff : ∀ x : Nat, x < n → ((x : ZMod n) = 1 ↔ x = 1) := by
    intro x hx
    constructor
    · intro h
      have hv := congrArg ZMod.val h
      rw [ZMod.val_natCast, Nat.mod_eq_of_lt hx] at hv
      haveI : Fact (1 < n) := ⟨hn1⟩
      rw [hv, ZMod.val_one]
    · rintro rfl; simp
  have hpos : 0 < n := by omega
  apply lucas_primality n (a : ZMod n)
  · rw [powMod_eq n fuel a _ (by omega)] at h1
    rw [← cast_eq, h1]; simp
  · intro q hq hdvd
    rw [← hprod] at hdvd
    obtain ⟨r, hr, hqr⟩ := (Prime.dvd_prod_iff hq.prime).1 hdvd
    have : q = r := (Nat.prime_dvd_prime_iff_eq hq (hfs r hr)).1 hqr
    subst this
    have hlt : (n - 1) / q < 2 ^ fuel := lt_of_le_of_lt (Nat.div_le_self _ _) (by omega)
    have h2q := h2 q hr
    rw [powMod_eq n fuel a _ hlt] at h2q
    rw [← cast_eq]
    intro h
    exact h2q ((one_iff _ (Nat.mod_lt _ hpos)).1 h)

theorem prime_31757755568855353 : Nat.Prime 31757755568855353 := by
  refine pratt _ 10 55 [2, 2, 2, 3, 31, 107, 223, 4153, 430751] (by decide) ?_ (by decide!) (by decide!)
    (by decide!) (by decide!)
  intro q hq
  simp only [List.mem_cons, List.mem_singleton, List.not_mem_nil, or_false] at hq
  rcases hq with rfl | rfl | rfl | rfl | rfl | rfl | rfl | rfl | rfl
  · norm_num
  · norm_num
  · norm_num
  · norm_num
  · norm_num
  · norm_num
  · norm_num
  · norm_num
  · norm_num

theorem prime_2773320623 : Nat.Prime 2773320623 := by
  refine pratt _ 5 32 [2, 2437, 569003] (by decide) ?_ (by decide!) (by decide!)
    (by decide!) (by decide!)
  intro q hq
  simp only [List.mem_cons, List.mem_singleton, List.not_mem_nil, or_false] at hq
  rcases hq with rfl | rfl | rfl
  · norm_num
  · norm_num
  · norm_num

theorem prime_72106336199 : Nat.Prime 72106336199 := by
  refine pratt _ 7 37 [2, 13, 2773320623] (by decide) ?_ (by decide!) (by decide!)
    (by decide!) (by decide!)
  intro q hq
  simp only [List.mem_cons, List.mem_singleton, List.not_mem_nil, or_false] at hq
  rcases hq with rfl | rfl | rfl
  · norm_num
  · norm_num
  · exact prime_2773320623

theorem prime_1919519569386763 : Nat.Prime 1919519569386763 := by
  refine pratt _ 2 51 [2, 3, 7, 19, 47, 47, 127, 8574133] (by decide) ?_ (by decide!) (by decide!)
    (by decide!) (by decide!)
  intro q hq
  simp only [List.mem_cons, List.mem_singleton, List.not_mem_nil, or_false] at hq
  rcases hq with rfl | rfl | rfl | rfl | rfl | rfl | rfl | rfl
  · norm_num
  · norm_num
  · norm_num
  · norm_num
  · norm_num
  · norm_num
  · norm_num
  · norm_num

theorem prime_75445702479781427272750846543864801 : Nat.Prime 75445702479781427272750846543864801 := by
  refine pratt _ 7 116 [2, 2, 2, 2, 2, 3, 3, 5, 5, 75707, 72106336199, 1919519569386763] (by decide) ?_ (by decide!) (by decide!)
    (by decide!) (by decide!)
  intro q hq
  simp only [List.mem_cons, List.mem_singleton, List.not_mem_nil, or_false] at hq
  rcases hq with rfl | rfl | rfl | rfl | rfl | rfl | rfl | rfl | rfl | rfl | rfl | rfl
  · norm_num
  · norm_num
  · norm_num
  · norm_num
  · norm_num
  · norm_num
  · norm_num
  · norm_num
  · norm_num
  · norm_num
  · exact prime_72106336199
  · exact prime_1919519569386763

theorem prime_74058212732561358302231226437062788676166966415465897661863160754340907 : Nat.Prime 74058212732561358302231226437062788676166966415465897661863160754340907 := by
  refine pratt _ 2 236 [2, 3, 353, 57467, 132049, 1923133, 31757755568855353, 75445702479781427272750846543864801] (by decide) ?_ (by decide!) (by decide!)
    (by decide!) (by decide!)
  intro q hq
  simp only [List.mem_cons, List.mem_singleton, List.not_mem_nil, or_false] at hq
  rcases hq with rfl | rfl | rfl | rfl | rfl | rfl | rfl | rfl
  · norm_num
  · norm_num
  · norm_num
  · norm_num
  · norm_num
  · norm_num
  · exact prime_31757755568855353
  · exact prime_75445702479781427272750846543864801

theorem p_prime : Nat.Prime p := by
  refine pratt _ 2 255 [2, 2, 3, 65147, 74058212732561358302231226437062788676166966415465897661863160754340907] (by decide) ?_ (by decide!) (by decide!)
    (by decide!) (by decide!)
  intro q hq
  simp only [List.mem_cons, List.mem_singleton, List.not_mem_nil, or_false] at hq
  rcases hq with rfl | rfl | rfl | rfl | rfl
  · norm_num
  · norm_num
  · norm_num
  · norm_num
  · exact prime_74058212732561358302231226437062788676166966415465897661863160754340907

theorem prime_14741173 : Nat.Prime 14741173 := by
  refine pratt _ 2 24 [2, 2, 3, 3, 409477] (by decide) ?_ (by decide!) (by decide!)
    (by decide!) (by decide!)
  intro q hq
  simp only [List.mem_cons, List.mem_singleton, List.not_mem_nil, or_false] at hq
  rcases hq with rfl | rfl | rfl | rfl | rfl
  · norm_num
  · norm_num
  · norm_num
  · norm_num
  · norm_num

theorem prime_58964693 : Nat.Prime 58964693 := by
  refine pratt _ 2 26 [2, 2, 14741173] (by decide) ?_ (by decide!) (by decide!)
    (by decide!) (by decide!)
  intro q hq
  simp only [List.mem_cons, List.mem_singleton, List.not_mem_nil, or_false] at hq
  rcases hq with rfl | rfl | rfl
  · norm_num
  · norm_num
  · exact prime_14741173

theorem prime_3044861653679985063343 : Nat.Prime 3044861653679985063343 := by
  refine pratt _ 5 72 [2, 3, 11, 30703, 82163, 132667, 137849] (by decide) ?_ (by decide!) (by decide!)
    (by decide!) (by decide!)
  intro q hq
  simp only [List.mem_cons, List.mem_singleton, List.not_mem_nil, or_false] at hq
  rcases hq with rfl | rfl | rfl | rfl | rfl | rfl | rfl
  · norm_num
  · norm_num
  · norm_num
  · norm_num
  · norm_num
  · norm_num
  · norm_num

theorem prime_198211423230930754013084525763697 : Nat.Prime 198211423230930754013084525763697 := by
  refine pratt _ 5 108 [2, 2, 2, 2, 3, 23, 58964693, 3044861653679985063343] (by decide) ?_ (by decide!) (by decide!)
    (by decide!) (by decide!)
  intro q hq
  simp only [List.mem_cons, List.mem_singleton, List.not_mem_nil, or_false] at hq
  rcases hq with rfl | rfl | rfl | rfl | rfl | rfl | rfl | rfl
  · norm_num
  · norm_num
  · norm_num
  · norm_num
  · norm_num
  · norm_num
  · exact prime_58964693
  · exact prime_3044861653679985063343

theorem prime_292386187 : Nat.Prime 292386187 := by
  refine pratt _ 2 29 [2, 3, 3, 3, 3, 307, 5879] (by decide) ?_ (by decide!) (by decide!)
    (by decide!) (by decide!)
  intro q hq
  simp only [List.mem_cons, List.mem_singleton, List.not_mem_nil, or_false] at hq
  rcases hq with rfl | rfl | rfl | rfl | rfl | rfl | rfl
  · norm_num
  · norm_num
  · norm_num
  · norm_num
  · norm_num
  · norm_num
  · norm_num

theorem prime_213441916511 : Nat.Prime 213441916511 := by
  refine pratt _ 13 38 [2, 5, 73, 292386187] (by decide) ?_ (by decide!) (by decide!)
    (by decide!) (by decide!)
  intro q hq
  simp only [List.mem_cons, List.mem_singleton, List.not_mem_nil, or_false] at hq
  rcases hq with rfl | rfl | rfl | rfl
  · norm_num
  · norm_num
  · norm_num
  · exact prime_292386187

theorem prime_1257559732178653 : Nat.Prime 1257559732178653 := by
  refine pratt _ 2 51 [2, 2, 3, 7, 23, 531581, 1224481] (by decide) ?_ (by decide!) (by decide!)
    (by decide!) (by decide!)
  intro q hq
  simp only [List.mem_cons, List.mem_singleton, List.not_mem_nil, or_false] at hq
  rcases hq with rfl | rfl | rfl | rfl | rfl | rfl | rfl
  · norm_num
  · norm_num
  · norm_num
  · norm_num
  · norm_num
  · norm_num
  · norm_num

theorem prime_4434155615661930479 : Nat.Prime 4434155615661930479 := by
  refine pratt _ 17 62 [2, 41, 43, 1257559732178653] (by decide) ?_ (by decide!) (by decide!)
    (by decide!) (by decide!)
  intro q hq
  simp only [List.mem_cons, List.mem_singleton, List.not_mem_nil, or_false] at hq
  rcases hq with rfl | rfl | rfl | rfl
  · norm_num
  · norm_num
  · norm_num
  · exact prime_1257559732178653

theorem prime_172054593956031949258510691 : Nat.Prime 172054593956031949258510691 := by
  refine pratt _ 2 88 [2, 5, 1361, 2851, 4434155615661930479] (by decide) ?_ (by decide!) (by decide!)
    (by decide!) (by decide!)
  intro q hq
  simp only [List.mem_cons, List.mem_singleton, List.not_mem_nil, or_false] at hq
  rcases hq with rfl | rfl | rfl | rfl | rfl
  · norm_num
  · norm_num
  · norm_num
  · norm_num
  · exact prime_4434155615661930479

theorem prime_19757330305831588566944191468367130476339 : Nat.Prime 19757330305831588566944191468367130476339 := by
  refine pratt _ 2 134 [2, 269, 213441916511, 172054593956031949258510691] (by decide) ?_ (by decide!) (by decide!)
    (by decide!) (by decide!)
  intro q hq
  simp only [List.mem_cons, List.mem_singleton, List.not_mem_nil, or_false] at hq
  rcases hq with rfl | rfl | rfl | rfl
  · norm_num
  · norm_num
  · exact prime_213441916511
  · exact prime_172054593956031949258510691

theorem prime_276602624281642239937218680557139826668747 : Nat.Prime 276602624281642239937218680557139826668747 := by
  refine pratt _ 2 138 [2, 7, 19757330305831588566944191468367130476339] (by decide) ?_ (by decide!) (by decide!)
    (by decide!) (by decide!)
  intro q hq
  simp only [List.mem_cons, List.mem_singleton, List.not_mem_nil, or_false] at hq
  rcases hq with rfl | rfl | rfl
  · norm_num
  · norm_num
  · exact prime_19757330305831588566944191468367130476339

theorem L_prime : Nat.Prime L := by
  refine pratt _ 2 253 [2, 2, 3, 11, 198211423230930754013084525763697, 276602624281642239937218680557139826668747] (by decide) ?_ (by decide!) (by decide!)
    (by decide!) (by decide!)
  intro q hq
  simp only [List.mem_cons, List.mem_singleton, List.not_mem_nil, or_false] at hq
  rcases hq with rfl | rfl | rfl | rfl | rfl | rfl
  · norm_num
  · norm_num
  · norm_num
  · norm_num
  · exact prime_198211423230930754013084525763697
  · exact prime_276602624281642239937218680557139826668747

end edwards25519

/-! ## The twisted Edwards curve `-x^2 + y^2 = 1 + d x^2 y^2` over a field -/

namespace Edwards

variable {F : Type} [Field F]

theorem closure_poly (d x1 y1 x2 y2 : F)
    (h1 : -x1 ^ 2 + y1 ^ 2 = 1 + d * x1 ^ 2 * y1 ^ 2)
    (h2 : -x2 ^ 2 + y2 ^ 2 = 1 + d * x2 ^ 2 * y2 ^ 2) :
    -(x1 * y2 + y1 * x2) ^ 2 * (1 - d * x1 * x2 * y1 * y2) ^ 2
      + (y1 * y2 + x1 * x2) ^ 2 * (1 + d * x1 * x2 * y1 * y2) ^ 2
    = (1 + d * x1 * x2 * y1 * y2) ^ 2 * (1 - d * x1 * x2 * y1 * y2) ^ 2
      + d * (x1 * y2 + y1 * x2) ^ 2 * (y1 * y2 + x1 * x2) ^ 2 := by
  linear_combination
    (d^3*x1^2*y1^2*x2^4*y2^4 - d^2*x1^2*x2^4*y2^4 + d^2*y1^2*x2^4*y2^4 - d^2*x2^4*y2^4
      - d*x1^2*x2^4*y2^2 + d*x1^2*x2^2*y2^4 + d*y1^2*x2^4*y2^2 - d*y1^2*x2^2*y2^4
      - 2*d*x2^4*y2^4 - 2*d*x2^2*y2^2 - 2*x2^4*y2^2 + x2^4 + 2*x2^2*y2^4 - 4*x2^2*y2^2 + y2^4) * h1
    + (d*x1^4*x2^2*y2^2 + 2*d*x1^2*x2^2*y2^2 + d*y1^4*x2^2*y2^2 - 2*d*y1^2*x2^2*y2^2
      + d*x2^2*y2^2 + 2*x1^2*x2^2*y2^2 - x1^2*x2^2 + x1^2*y2^2 - 2*y1^2*x2^2*y2^2 + y1^2*x2^2
      - y1^2*y2^2 + 2*x2^2*y2^2 - x2^2 + y2^2 + 1) * h2

theorem assoc_poly_x (d x1 y1 x2 y2 x3 y3 : F)
    (h1 : -x1 ^ 2 + y1 ^ 2 = 1 + d * x1 ^ 2 * y1 ^ 2)
    (h2 : -x2 ^ 2 + y2 ^ 2 = 1 + d * x2 ^ 2 * y2 ^ 2)
    (h3 : -x3 ^ 2 + y3 ^ 2 = 1 + d * x3 ^ 2 * y3 ^ 2) :
    ((x1 * y2 + y1 * x2) * y3 * (1 - d * x1 * x2 * y1 * y2)
        + (y1 * y2 + x1 * x2) * x3 * (1 + d * x1 * x2 * y1 * y2))
      * ((1 + d * x2 * x3 * y2 * y3) * (1 - d * x2 * x3 * y2 * y3)
        + d * x1 * y1 * (x2 * y3 + y2 * x3) * (y2 * y3 + x2 * x3))
    = (x1 * (y2 * y3 + x2 * x3) * (1 + d * x2 * x3 * y2 * y3)
        + y1 * (x2 * y3 + y2 * x3) * (1 - d * x2 * x3 * y2 * y3))
      * ((1 + d * x1 * x2 * y1 * y2) * (1 - d * x1 * x2 * y1 * y2)
        + d * (x1 * y2 + y1 * x2) * (y1 * y2 + x1 * x2) * x3 * y3) := by
  linear_combination
    (-d^2*x1*x2^4*y2^3*x3^2*y3 - d^2*x1*x2^3*y2^4*x3*y3^2 + d^2*y1*x2^4*y2^3*x3*y3^2
      + d^2*y1*x2^3*y2^4*x3^2*y3 - d*x1*x2^4*y2*x3^2*y3 - d*x1*x2^3*y2^2*x3^3
      - d*x1*x2^3*y2^2*x3 + d*x1*x2^2*y2^3*y3^3 - d*x1*x2^2*y2^3*y3 + d*x1*x2*y2^4*x3*y3^2
      + d*y1*x2^4*y2*x3*y3^2 + d*y1*x2^3*y2^2*y3^3 - d*y1*x2^3*y2^2*y3 - d*y1*x2^2*y2^3*x3^3
      - d*y1*x2^2*y2^3*x3 - d*y1*x2*y2^4*x3^2*y3) * h1
    + (d^2*x1^2*y1*x2^2*y2*x3^3*y3^2 - d^2*x1^2*y1*x2*y2^2*x3^2*y3^3
      - d^2*x1*y1^2*x2^2*y2*x3^2*y3^3 + d^2*x1*y1^2*x2*y2^2*x3^3*y3^2 + d*x1^3*x2^2*y2*x3^2*y3
      + d*x1^3*x2*y2^2*x3*y3^2 + d*x1^3*x2*x3^3*y3^2 + d*x1^3*y2*x3^2*y3^3
      - d*x1^2*y1*x2^2*y2*x3*y3^2 - d*x1^2*y1*x2*y2^2*x3^2*y3 + d*x1^2*y1*x2*x3^2*y3^3
      + d*x1^2*y1*y2*x3^3*y3^2 - d*x1*y1^2*x2^2*y2*x3^2*y3 - d*x1*y1^2*x2*y2^2*x3*y3^2
      - d*x1*y1^2*x2*x3^3*y3^2 - d*x1*y1^2*y2*x3^2*y3^3 + d*x1*x2^2*y2*x3^2*y3
      + d*x1*x2*y2^2*x3*y3^2 + d*x1*x2*x3^3*y3^2 + d*x1*y2*x3^2*y3^3 + d*y1^3*x2^2*y2*x3*y3^2
      + d*y1^3*x2*y2^2*x3^2*y3 - d*y1^3*x2*x3^2*y3^3 - d*y1^3*y2*x3^3*y3^2
      - d*y1*x2^2*y2*x3*y3^2 - d*y1*x2*y2^2*x3^2*y3 + d*y1*x2*x3^2*y3^3 + d*y1*y2*x3^3*y3^2
      + x1^3*x2*x3^3 - x1^3*x2*x3*y3^2 + x1^3*x2*x3 + x1^3*y2*x3^2*y3 - x1^3*y2*y3^3
      + x1^3*y2*y3 + x1^2*y1*x2*x3^2*y3 - x1^2*y1*x2*y3^3 + x1^2*y1*x2*y3 + x1^2*y1*y2*x3^3
      - x1^2*y1*y2*x3*y3^2 + x1^2*y1*y2*x3 - x1*y1^2*x2*x3^3 + x1*y1^2*x2*x3*y3^2
      - x1*y1^2*x2*x3 - x1*y1^2*y2*x3^2*y3 + x1*y1^2*y2*y3^3 - x1*y1^2*y2*y3 + x1*x2*x3^3
      - x1*x2*x3*y3^2 + x1*x2*x3 + x1*y2*x3^2*y3 - x1*y2*y3^3 + x1*y2*y3 - y1^3*x2*x3^2*y3
      + y1^3*x2*y3^3 - y1^3*x2*y3 - y1^3*y2*x3^3 + y1^3*y2*x3*y3^2 - y1^3*y2*x3
      + y1*x2*x3^2*y3 - y1*x2*y3^3 + y1*x2*y3 + y1*y2*x3^3 - y1*y2*x3*y3^2 + y1*y2*x3) * h2
    + (-d*x1^2*y1*x2^2*y2*x3 + d*x1^2*y1*x2*y2^2*y3 + d*x1*y1^2*x2^2*y2*y3
      - d*x1*y1^2*x2*y2^2*x3 - x1^3*x2^3*x3 - x1^3*x2^2*y2*y3 + x1^3*x2*y2^2*x3 - x1^3*x2*x3
      + x1^3*y2^3*y3 - x1^3*y2*y3 - x1^2*y1*x2^3*y3 - x1^2*y1*x2^2*y2*x3 + x1^2*y1*x2*y2^2*y3
      - x1^2*y1*x2*y3 + x1^2*y1*y2^3*x3 - x1^2*y1*y2*x3 + x1*y1^2*x2^3*x3 + x1*y1^2*x2^2*y2*y3
      - x1*y1^2*x2*y2^2*x3 + x1*y1^2*x2*x3 - x1*y1^2*y2^3*y3 + x1*y1^2*y2*y3 - x1*x2^3*x3
      - x1*x2^2*y2*y3 + x1*x2*y2^2*x3 - x1*x2*x3 + x1*y2^3*y3 - x1*y2*y3 + y1^3*x2^3*y3
      + y1^3*x2^2*y2*x3 - y1^3*x2*y2^2*y3 + y1^3*x2*y3 - y1^3*y2^3*x3 + y1^3*y2*x3
      - y1*x2^3*y3 - y1*x2^2*y2*x3 + y1*x2*y2^2*y3 - y1*x2*y3 + y1*y2^3*x3 - y1*y2*x3) * h3

theorem assoc_poly_y (d x1 y1 x2 y2 x3 y3 : F)
    (h1 : -x1 ^ 2 + y1 ^ 2 = 1 + d * x1 ^ 2 * y1 ^ 2)
    (h2 : -x2 ^ 2 + y2 ^ 2 = 1 + d * x2 ^ 2 * y2 ^ 2)
    (h3 : -x3 ^ 2 + y3 ^ 2 = 1 + d * x3 ^ 2 * y3 ^ 2) :
    ((y1 * y2 + x1 * x2) * y3 * (1 + d * x1 * x2 * y1 * y2)
        + (x1 * y2 + y1 * x2) * x3 * (1 - d * x1 * x2 * y1 * y2))
      * ((1 + d * x2 * x3 * y2 * y3) * (1 - d * x2 * x3 * y2 * y3)
        - d * x1 * y1 * (x2 * y3 + y2 * x3) * (y2 * y3 + x2 * x3))
    = (y1 * (y2 * y3 + x2 * x3) * (1 + d * x2 * x3 * y2 * y3)
        + x1 * (x2 * y3 + y2 * x3) * (1 - d * x2 * x3 * y2 * y3))
      * ((1 + d * x1 * x2 * y1 * y2) * (1 - d * x1 * x2 * y1 * y2)
        - d * (x1 * y2 + y1 * x2) * (y1 * y2 + x1 * x2) * x3 * y3) := by
  linear_combination
    (d^2*x1*x2^4*y2^3*x3*y3^2 + d^2*x1*x2^3*y2^4*x3^2*y3 - d^2*y1*x2^4*y2^3*x3^2*y3
      - d^2*y1*x2^3*y2^4*x3*y3^2 + d*x1*x2^4*y2*x3*y3^2 + d*x1*x2^3*y2^2*y3^3
      - d*x1*x2^3*y2^2*y3 - d*x1*x2^2*y2^3*x3^3 - d*x1*x2^2*y2^3*x3 - d*x1*x2*y2^4*x3^2*y3
      - d*y1*x2^4*y2*x3^2*y3 - d*y1*x2^3*y2^2*x3^3 - d*y1*x2^3*y2^2*x3 + d*y1*x2^2*y2^3*y3^3
      - d*y1*x2^2*y2^3*y3 + d*y1*x2*y2^4*x3*y3^2) * h1
    + (d^2*x1^2*y1*x2^2*y2*x3^2*y3^3 - d^2*x1^2*y1*x2*y2^2*x3^3*y3^2
      - d^2*x1*y1^2*x2^2*y2*x3^3*y3^2 + d^2*x1*y1^2*x2*y2^2*x3^2*y3^3 - d*x1^3*x2^2*y2*x3*y3^2
      - d*x1^3*x2*y2^2*x3^2*y3 + d*x1^3*x2*x3^2*y3^3 + d*x1^3*y2*x3^3*y3^2
      + d*x1^2*y1*x2^2*y2*x3^2*y3 + d*x1^2*y1*x2*y2^2*x3*y3^2 + d*x1^2*y1*x2*x3^3*y3^2
      + d*x1^2*y1*y2*x3^2*y3^3 + d*x1*y1^2*x2^2*y2*x3*y3^2 + d*x1*y1^2*x2*y2^2*x3^2*y3
      - d*x1*y1^2*x2*x3^2*y3^3 - d*x1*y1^2*y2*x3^3*y3^2 - d*x1*x2^2*y2*x3*y3^2
      - d*x1*x2*y2^2*x3^2*y3 + d*x1*x2*x3^2*y3^3 + d*x1*y2*x3^3*y3^2 - d*y1^3*x2^2*y2*x3^2*y3
      - d*y1^3*x2*y2^2*x3*y3^2 - d*y1^3*x2*x3^3*y3^2 - d*y1^3*y2*x3^2*y3^3
      + d*y1*x2^2*y2*x3^2*y3 + d*y1*x2*y2^2*x3*y3^2 + d*y1*x2*x3^3*y3^2 + d*y1*y2*x3^2*y3^3
      + x1^3*x2*x3^2*y3 - x1^3*x2*y3^3 + x1^3*x2*y3 + x1^3*y2*x3^3 - x1^3*y2*x3*y3^2
      + x1^3*y2*x3 + x1^2*y1*x2*x3^3 - x1^2*y1*x2*x3*y3^2 + x1^2*y1*x2*x3 + x1^2*y1*y2*x3^2*y3
      - x1^2*y1*y2*y3^3 + x1^2*y1*y2*y3 - x1*y1^2*x2*x3^2*y3 + x1*y1^2*x2*y3^3 - x1*y1^2*x2*y3
      - x1*y1^2*y2*x3^3 + x1*y1^2*y2*x3*y3^2 - x1*y1^2*y2*x3 + x1*x2*x3^2*y3 - x1*x2*y3^3
      + x1*x2*y3 + x1*y2*x3^3 - x1*y2*x3*y3^2 + x1*y2*x3 - y1^3*x2*x3^3 + y1^3*x2*x3*y3^2
      - y1^3*x2*x3 - y1^3*y2*x3^2*y3 + y1^3*y2*y3^3 - y1^3*y2*y3 + y1*x2*x3^3 - y1*x2*x3*y3^2
      + y1*x2*x3 + y1*y2*x3^2*y3 - y1*y2*y3^3 + y1*y2*y3) * h2
    + (-d*x1^2*y1*x2^2*y2*y3 + d*x1^2*y1*x2*y2^2*x3 + d*x1*y1^2*x2^2*y2*x3
      - d*x1*y1^2*x2*y2^2*y3 - x1^3*x2^3*y3 - x1^3*x2^2*y2*x3 + x1^3*x2*y2^2*y3 - x1^3*x2*y3
      + x1^3*y2^3*x3 - x1^3*y2*x3 - x1^2*y1*x2^3*x3 - x1^2*y1*x2^2*y2*y3 + x1^2*y1*x2*y2^2*x3
      - x1^2*y1*x2*x3 + x1^2*y1*y2^3*y3 - x1^2*y1*y2*y3 + x1*y1^2*x2^3*y3 + x1*y1^2*x2^2*y2*x3
      - x1*y1^2*x2*y2^2*y3 + x1*y1^2*x2*y3 - x1*y1^2*y2^3*x3 + x1*y1^2*y2*x3 - x1*x2^3*y3
      - x1*x2^2*y2*x3 + x1*x2*y2^2*y3 - x1*x2*y3 + x1*y2^3*x3 - x1*y2*x3 + y1^3*x2^3*x3
      + y1^3*x2^2*y2*y3 - y1^3*x2*y2^2*x3 + y1^3*x2*x3 - y1^3*y2^3*y3 + y1^3*y2*y3
      - y1*x2^3*x3 - y1*x2^2*y2*y3 + y1*x2*y2^2*x3 - y1*x2*x3 + y1*y2^3*y3 - y1*y2*y3) * h3

end Edwards

namespace Edwards

variable {F : Type} [Field F] {d : F}

theorem eps_sq_ne_one (hc : Complete d) {x1 y1 x2 y2 : F}
    (h1 : -x1 ^ 2 + y1 ^ 2 = 1 + d * x1 ^ 2 * y1 ^ 2)
    (h2 : -x2 ^ 2 + y2 ^ 2 = 1 + d * x2 ^ 2 * y2 ^ 2) :
    (d * x1 * x2 * y1 * y2) ^ 2 ≠ 1 := by
  intro hε
  obtain ⟨h2ne, ⟨i, hi⟩, hd⟩ := hc
  have hne : d * x1 * x2 * y1 * y2 ≠ 0 := by
    intro h
    rw [h] at hε
    simp at hε
  have hx1 : x1 ≠ 0 := by
    intro h; apply hne; rw [h]; ring
  have hy1 : y1 ≠ 0 := by
    intro h; apply hne; rw [h]; ring
  have hy2 : y2 ≠ 0 := by
    intro h; apply hne; rw [h]; ring
  have k1 : (i * x1 + d * x1 * x2 * y1 * y2 * y1) ^ 2
      = d * (x1 * y1 * (i * x2 + y2)) ^ 2 := by
    linear_combination (x1 ^ 2 - d * x1 ^ 2 * y1 ^ 2 * x2 ^ 2) * hi + (y1 ^ 2 - 1) * hε + h1
      - d * x1 ^ 2 * y1 ^ 2 * h2
  have k2 : (i * x1 - d * x1 * x2 * y1 * y2 * y1) ^ 2
      = d * (x1 * y1 * (i * x2 - y2)) ^ 2 := by
    linear_combination (x1 ^ 2 - d * x1 ^ 2 * y1 ^ 2 * x2 ^ 2) * hi + (y1 ^ 2 - 1) * hε + h1
      - d * x1 ^ 2 * y1 ^ 2 * h2
  have sq : ∀ u v : F, v ≠ 0 → u ^ 2 = d * v ^ 2 → False := by
    intro u v hv h
    apply hd (u / v)
    rw [div_pow, h]
    field_simp
  by_cases hp : i * x2 + y2 = 0
  · by_cases hm : i * x2 - y2 = 0
    · apply hy2
      have : 2 * y2 = 0 := by linear_combination hp - hm
      rcases mul_eq_zero.1 this with h | h
      · exact absurd h h2ne
      · exact h
    · exact sq _ _ (mul_ne_zero (mul_ne_zero hx1 hy1) hm) k2
  · exact sq _ _ (mul_ne_zero (mul_ne_zero hx1 hy1) hp) k1

theorem denom_ne_zero (hc : Complete d) {P Q : F × F} (hP : OnCurve d P) (hQ : OnCurve d Q) :
    1 + d * P.1 * Q.1 * P.2 * Q.2 ≠ 0 ∧ 1 - d * P.1 * Q.1 * P.2 * Q.2 ≠ 0 := by
  have h := eps_sq_ne_one hc hP hQ
  constructor
  · intro h0
    apply h
    linear_combination (d * P.1 * Q.1 * P.2 * Q.2 - 1) * h0
  · intro h0
    apply h
    linear_combination (-(d * P.1 * Q.1 * P.2 * Q.2) - 1) * h0

theorem ed_zero_onCurve : OnCurve d (zero : F × F) := by
  simp [OnCurve, zero]

theorem ed_neg_onCurve {P : F × F} (hP : OnCurve d P) : OnCurve d (neg P) := by
  simpa [OnCurve, neg] using hP

theorem ed_add_onCurve (hc : Complete d) {P Q : F × F} (hP : OnCurve d P) (hQ : OnCurve d Q) :
    OnCurve d (add d P Q) := by
  obtain ⟨hp, hm⟩ := denom_ne_zero hc hP hQ
  have key := closure_poly d P.1 P.2 Q.1 Q.2 hP hQ
  simp only [OnCurve, add]
  field_simp
  linear_combination key

theorem ed_add_comm (P Q : F × F) : add d P Q = add d Q P := by
  simp only [add]
  congr 1 <;> congr 1 <;> ring

theorem ed_add_zero (P : F × F) : add d P zero = P := by
  simp [add, zero]

theorem ed_zero_add (P : F × F) : add d zero P = P := by
  rw [ed_add_comm, ed_add_zero]

theorem ed_add_neg (hc : Complete d) {P : F × F} (hP : OnCurve d P) : add d P (neg P) = zero := by
  obtain ⟨hp, hm⟩ := denom_ne_zero hc hP (ed_neg_onCurve hP)
  simp only [neg] at hp hm
  simp only [add, neg, zero]
  rw [OnCurve] at hP
  ext
  · simp only
    rw [div_eq_zero_iff]
    left; ring
  · simp only
    rw [div_eq_one_iff_eq hm]
    linear_combination hP

end Edwards

namespace Edwards

variable {F : Type} [Field F] {d : F}

theorem ed_add_assoc (hc : Complete d) {P Q R : F × F} (hP : OnCurve d P) (hQ : OnCurve d Q)
    (hR : OnCurve d R) : add d (add d P Q) R = add d P (add d Q R) := by
  obtain ⟨hp1, hm1⟩ := denom_ne_zero hc hP hQ
  obtain ⟨hp2, hm2⟩ := denom_ne_zero hc hQ hR
  obtain ⟨hp3, hm3⟩ := denom_ne_zero hc (ed_add_onCurve hc hP hQ) hR
  obtain ⟨hp4, hm4⟩ := denom_ne_zero hc hP (ed_add_onCurve hc hQ hR)
  have kx := assoc_poly_x d P.1 P.2 Q.1 Q.2 R.1 R.2 hP hQ hR
  have ky := assoc_poly_y d P.1 P.2 Q.1 Q.2 R.1 R.2 hP hQ hR
  obtain ⟨x1, y1⟩ := P
  obtain ⟨x2, y2⟩ := Q
  obtain ⟨x3, y3⟩ := R
  simp only [add] at hp3 hm3 hp4 hm4 hp1 hm1 hp2 hm2 kx ky ⊢
  ext
  · simp only
    rw [div_eq_div_iff hp3 hp4]
    field_simp
    linear_combination ((1 - d * x2 * x3 * y2 * y3) * (1 + d * x2 * x3 * y2 * y3)
      * ((1 + d * x1 * x2 * y1 * y2) * (1 - d * x1 * x2 * y1 * y2))) * kx
  · simp only
    rw [div_eq_div_iff hm3 hm4]
    field_simp
    linear_combination ((1 - d * x2 * x3 * y2 * y3) * (1 + d * x2 * x3 * y2 * y3)
      * ((1 + d * x1 * x2 * y1 * y2) * (1 - d * x1 * x2 * y1 * y2))) * ky

theorem ed_smul_onCurve (hc : Complete d) {P : F × F} (hP : OnCurve d P) (n : ℕ) :
    OnCurve d (smul d n P) := by
  induction n with
  | zero => exact ed_zero_onCurve
  | succ n ih => exact ed_add_onCurve hc ih hP

theorem ed_smul_one (P : F × F) : smul d 1 P = P := by
  rw [smul, smul, ed_zero_add]

theorem ed_smul_add (hc : Complete d) {P : F × F} (hP : OnCurve d P) (m n : ℕ) :
    smul d (m + n) P = add d (smul d m P) (smul d n P) := by
  induction n with
  | zero => rw [Nat.add_zero, smul, ed_add_zero]
  | succ n ih =>
    rw [← Nat.add_assoc, smul, ih, smul,
      ed_add_assoc hc (ed_smul_onCurve hc hP m) (ed_smul_onCurve hc hP n) hP]

theorem ed_smul_zero (n : ℕ) : smul d n (zero : F × F) = zero := by
  induction n with
  | zero => rfl
  | succ n ih => rw [smul, ih, ed_add_zero]

theorem ed_smul_mul (hc : Complete d) {P : F × F} (hP : OnCurve d P) (m n : ℕ) :
    smul d (m * n) P = smul d m (smul d n P) := by
  induction m with
  | zero => rw [Nat.zero_mul]; rfl
  | succ m ih => rw [Nat.succ_mul, ed_smul_add hc hP, ih, smul]

theorem ed_add_neg_cancel_left (hc : Complete d) {P Q : F × F} (hP : OnCurve d P)
    (hQ : OnCurve d Q) : add d (neg P) (add d P Q) = Q := by
  rw [← ed_add_assoc hc (ed_neg_onCurve hP) hP hQ, ed_add_comm (neg P) P, ed_add_neg hc hP, ed_zero_add]

theorem ed_neg_add (P Q : F × F) : neg (add d P Q) = add d (neg P) (neg Q) := by
  simp only [add, neg]
  ext
  · simp only
    rw [neg_div']
    congr 1 <;> ring
  · simp only
    congr 1 <;> ring

theorem ed_neg_zero : neg (zero : F × F) = zero := by
  simp [neg, zero]

theorem ed_smul_neg (P : F × F) (n : ℕ) : smul d n (neg P) = neg (smul d n P) := by
  induction n with
  | zero => rw [smul, smul, ed_neg_zero]
  | succ n ih => rw [smul, ih, smul, ed_neg_add]

end Edwards

/-! ## Field operations of the model in the prime field -/

namespace edwards25519

theorem cast_mod (x : Nat) : ((x % p : Nat) : Fp) = (x : Fp) := ZMod.natCast_mod x p

theorem cast_p : ((p : Nat) : Fp) = 0 := ZMod.natCast_self p

theorem cast_FeAdd (a b : Nat) : ((FeAdd a b : Nat) : Fp) = (a : Fp) + (b : Fp) := by
  rw [FeAdd, cast_mod, Nat.cast_add]

theorem cast_FeMul (a b : Nat) : ((FeMul a b : Nat) : Fp) = (a : Fp) * (b : Fp) := by
  rw [FeMul, cast_mod, Nat.cast_mul]

theorem cast_FeSquare (a : Nat) : ((FeSquare a : Nat) : Fp) = (a : Fp) ^ 2 := by
  rw [FeSquare, cast_mod, Nat.cast_mul, pow_two]

theorem cast_p_sub_mod (b : Nat) : ((p - b % p : Nat) : Fp) = -(b : Fp) := by
  rw [Nat.cast_sub (Nat.le_of_lt (Nat.mod_lt _ p_pos)), cast_p, cast_mod, zero_sub]

theorem cast_FeSub (a b : Nat) : ((FeSub a b : Nat) : Fp) = (a : Fp) - (b : Fp) := by
  rw [FeSub, cast_mod, Nat.cast_add, cast_p_sub_mod, sub_eq_add_neg]

theorem cast_FeNeg (a : Nat) : ((FeNeg a : Nat) : Fp) = -(a : Fp) := by
  rw [FeNeg, cast_mod, cast_p_sub_mod]

theorem cast_powMod (fuel b e : Nat) (h : e < 2 ^ fuel) :
    ((powMod p fuel b e : Nat) : Fp) = (b : Fp) ^ e := by
  rw [powMod_eq p fuel b e h, cast_mod, Nat.cast_pow]

theorem cast_fePow22523 (z : Nat) : ((fePow22523 z : Nat) : Fp) = (z : Fp) ^ (2 ^ 252 - 3) := by
  rw [fePow22523, cast_powMod _ _ _ (by decide), cast_mod]

theorem cast_FeInvert [Fact (Nat.Prime p)] (z : Nat) :
    ((FeInvert z : Nat) : Fp) = (z : Fp)⁻¹ := by
  rw [FeInvert, cast_powMod _ _ _ (by decide), cast_mod]
  by_cases hz : (z : Fp) = 0
  · rw [hz, inv_zero, zero_pow (by decide)]
  · have h1 : (z : Fp) ^ (p - 1) = 1 := ZMod.pow_card_sub_one_eq_one hz
    have h2 : (z : Fp) ^ (p - 2) * (z : Fp) = 1 := by
      rw [← pow_succ]
      have : p - 2 + 1 = p - 1 := by decide
      rw [this, h1]
    exact eq_inv_of_mul_eq_one_left h2

/-- A canonical residue is determined by its class. -/
theorem eq_of_cast_eq {x y : Nat} (hx : x < p) (hy : y < p) (h : (x : Fp) = (y : Fp)) :
    x = y := by
  have := congrArg ZMod.val h
  rwa [ZMod.val_natCast, ZMod.val_natCast, Nat.mod_eq_of_lt hx, Nat.mod_eq_of_lt hy] at this

theorem eq_val_of_cast_eq {x : Nat} {q : Fp} (hx : x < p) (h : (x : Fp) = q) : x = q.val := by
  rw [← h, ZMod.val_natCast, Nat.mod_eq_of_lt hx]

theorem FeMul_lt (a b : Nat) : FeMul a b < p := Nat.mod_lt _ p_pos

theorem FeAdd_lt (a b : Nat) : FeAdd a b < p := Nat.mod_lt _ p_pos

theorem FeSub_lt (a b : Nat) : FeSub a b < p := Nat.mod_lt _ p_pos

theorem FeNeg_lt (a : Nat) : FeNeg a < p := Nat.mod_lt _ p_pos

theorem cast_d2 : ((d2 : Nat) : Fp) = 2 * dF := by
  have h : d2 = (2 * d) % p := by decide
  rw [h, cast_mod, Nat.cast_mul, dF]
  rfl

theorem two_ne_zero_Fp : (2 : Fp) ≠ 0 := by
  intro h
  have h2 : ((2 : Nat) : Fp) = ((0 : Nat) : Fp) := by simpa using h
  have := eq_of_cast_eq (by decide) (by decide) h2
  omega

theorem sqrtM1_sq : ((SqrtM1 : Nat) : Fp) ^ 2 = -1 := by
  have h : SqrtM1 * SqrtM1 % p = (p - 1 % p) % p := by decide
  have h2 := congrArg (fun n : Nat => (n : Fp)) h
  simp only [cast_mod, Nat.cast_mul, cast_p_sub_mod] at h2
  rw [pow_two, h2]
  simp

theorem dF_not_square [Fact (Nat.Prime p)] (z : Fp) : z ^ 2 ≠ dF := by
  intro h
  have hd0 : dF ≠ 0 := by
    intro h0
    have h2 : ((d : Nat) : Fp) = ((0 : Nat) : Fp) := by simpa [dF] using h0
    have := eq_of_cast_eq (by decide) (by decide) h2
    revert this
    decide
  have hsq : IsSquare dF := ⟨z, by rw [← h, pow_two]⟩
  have h1 := (ZMod.euler_criterion p hd0).1 hsq
  have h3 : ((powMod p 255 d (p / 2) : Nat) : Fp) = ((1 : Nat) : Fp) := by
    rw [cast_powMod _ _ _ (by decide)]
    simpa [dF] using h1
  have := eq_of_cast_eq (by decide!) (by decide) h3
  revert this
  decide!

theorem complete_dF [Fact (Nat.Prime p)] : Edwards.Complete dF :=
  ⟨two_ne_zero_Fp, ⟨(SqrtM1 : Fp), sqrtM1_sq⟩, dF_not_square⟩

end edwards25519

/-! ## Extended coordinates represent affine points -/

namespace edwards25519

open Edwards

theorem rep_zero [Fact (Nat.Prime p)] : Rep ExtendedGroupElement.Zero (zero : Fp × Fp) := by
  simp [Rep, ExtendedGroupElement.Zero, zero]

theorem rep_neg [Fact (Nat.Prime p)] {P : ExtendedGroupElement} {Q : Fp × Fp} (h : Rep P Q) :
    Rep P.Neg (neg Q) := by
  obtain ⟨hz, hx, hy, ht⟩ := h
  refine ⟨hz, ?_, hy, ?_⟩
  · simp only [ExtendedGroupElement.Neg, cast_FeNeg, neg, hx]; ring
  · simp only [ExtendedGroupElement.Neg, cast_FeNeg]
    linear_combination -ht

theorem rep_T {P : ExtendedGroupElement} {Q : Fp × Fp} [Fact (Nat.Prime p)] (h : Rep P Q) :
    (P.T : Fp) = Q.1 * Q.2 * (P.Z : Fp) := by
  obtain ⟨hz, hx, hy, ht⟩ := h
  apply mul_right_cancel₀ hz
  rw [ht, hx, hy]; ring

theorem rep_geAdd [Fact (Nat.Prime p)] {P₁ P₂ : ExtendedGroupElement} {Q₁ Q₂ : Fp × Fp}
    (h₁ : Rep P₁ Q₁) (h₂ : Rep P₂ Q₂) (c₁ : OnCurve dF Q₁) (c₂ : OnCurve dF Q₂) :
    Rep (geAdd P₁ P₂) (add dF Q₁ Q₂) := by
  obtain ⟨hp, hm⟩ := denom_ne_zero complete_dF c₁ c₂
  have t₁ := rep_T h₁
  have t₂ := rep_T h₂
  obtain ⟨hz₁, hx₁, hy₁, -⟩ := h₁
  obtain ⟨hz₂, hx₂, hy₂, -⟩ := h₂
  have h2 := two_ne_zero_Fp
  simp only [Rep, geAdd, cast_FeMul, cast_FeAdd, cast_FeSub, cast_d2, add, hx₁, hy₁, hx₂, hy₂,
    t₁, t₂]
  refine ⟨?_, ?_, ?_, ?_⟩
  · have : ((Q₁.2 * (P₁.Z : Fp) + (P₁.Z : Fp)) = 0) ∨ True := Or.inr trivial
    have e1 : ((P₁.Z : Fp) + (P₁.Z : Fp)) * (P₂.Z : Fp)
        - Q₁.1 * Q₁.2 * (P₁.Z : Fp) * (2 * dF) * (Q₂.1 * Q₂.2 * (P₂.Z : Fp))
        = 2 * (P₁.Z : Fp) * (P₂.Z : Fp) * (1 - dF * Q₁.1 * Q₂.1 * Q₁.2 * Q₂.2) := by ring
    have e2 : ((P₁.Z : Fp) + (P₁.Z : Fp)) * (P₂.Z : Fp)
        + Q₁.1 * Q₁.2 * (P₁.Z : Fp) * (2 * dF) * (Q₂.1 * Q₂.2 * (P₂.Z : Fp))
        = 2 * (P₁.Z : Fp) * (P₂.Z : Fp) * (1 + dF * Q₁.1 * Q₂.1 * Q₁.2 * Q₂.2) := by ring
    rw [e1, e2]
    exact mul_ne_zero (mul_ne_zero (mul_ne_zero (mul_ne_zero h2 hz₁) hz₂) hm)
      (mul_ne_zero (mul_ne_zero (mul_ne_zero h2 hz₁) hz₂) hp)
  · field_simp
    ring
  · field_simp
    ring
  · ring

end edwards25519

/-! ## Scalar multiplication -/

namespace edwards25519

open Edwards

theorem rep_scalarMult [Fact (Nat.Prime p)] {P : ExtendedGroupElement} {Q : Fp × Fp}
    (h : Rep P Q) (c : OnCurve dF Q) (fuel n : Nat) (hn : n < 2 ^ fuel) :
    Rep (scalarMult fuel n P) (smul dF n Q) := by
  induction fuel generalizing n with
  | zero =>
    have : n = 0 := by simpa using hn
    subst this
    exact rep_zero
  | succ k ih =>
    rw [scalarMult]
    by_cases h0 : n = 0
    · subst h0
      rw [if_pos rfl]
      exact rep_zero
    · rw [if_neg h0]
      have hk : n / 2 < 2 ^ k := by
        rw [pow_succ] at hn
        omega
      have hh := ih (n / 2) hk
      have ch := ed_smul_onCurve complete_dF c (n / 2)
      have h2 := rep_geAdd hh hh ch ch
      rw [← ed_smul_add complete_dF c] at h2
      by_cases h1 : n % 2 = 1
      · simp only [h1, if_true]
        have h3 := rep_geAdd h2 h (ed_smul_onCurve complete_dF c _) c
        have e : (n / 2 + n / 2).succ = n := by omega
        rw [← smul, e] at h3
        exact h3
      · simp only [h1, if_false]
        have e : n / 2 + n / 2 = n := by omega
        rw [e] at h2
        exact h2

theorem onCurve_baseF [Fact (Nat.Prime p)] : OnCurve dF baseF := by
  have h : (basePoint.Y * basePoint.Y) % p
      = (1 + d * (basePoint.X * basePoint.X) * (basePoint.Y * basePoint.Y)
          + basePoint.X * basePoint.X) % p := by decide
  have h2 := congrArg (fun n : Nat => (n : Fp)) h
  simp only [cast_mod, Nat.cast_mul, Nat.cast_add, Nat.cast_one] at h2
  rw [OnCurve, baseF, dF]
  linear_combination h2

theorem rep_basePoint [Fact (Nat.Prime p)] : Rep basePoint baseF := by
  have h : (basePoint.T * basePoint.Z) % p = (basePoint.X * basePoint.Y) % p := by decide
  have h2 := congrArg (fun n : Nat => (n : Fp)) h
  simp only [cast_mod, Nat.cast_mul] at h2
  have hz : (basePoint.Z : Fp) = 1 := by simp [basePoint]
  refine ⟨?_, ?_, ?_, h2⟩
  · rw [hz]; exact one_ne_zero
  · rw [hz, baseF]; simp
  · rw [hz, baseF]; simp

end edwards25519

/-! ## Encoding, and the order of the base point -/

namespace edwards25519

open Edwards

theorem rep_coords [Fact (Nat.Prime p)] {P : ExtendedGroupElement} {Q : Fp × Fp} (h : Rep P Q) :
    FeMul P.X (FeInvert P.Z) = Q.1.val ∧ FeMul P.Y (FeInvert P.Z) = Q.2.val := by
  obtain ⟨hz, hx, hy, -⟩ := h
  constructor
  · apply eq_val_of_cast_eq (FeMul_lt _ _)
    rw [cast_FeMul, cast_FeInvert, hx, mul_assoc, mul_inv_cancel₀ hz, mul_one]
  · apply eq_val_of_cast_eq (FeMul_lt _ _)
    rw [cast_FeMul, cast_FeInvert, hy, mul_assoc, mul_inv_cancel₀ hz, mul_one]

theorem val_lt (q : Fp) : q.val < p := by
  haveI : NeZero p := ⟨Nat.pos_iff_ne_zero.1 p_pos⟩
  exact ZMod.val_lt q

theorem FeToBytes_val (q : Fp) : FeToBytes q.val = leBytes 32 q.val := by
  rw [FeToBytes, Nat.mod_eq_of_lt (val_lt q)]

/-- The encoding of a group element is the encoding of the affine point it represents. -/
theorem rep_ToBytes [Fact (Nat.Prime p)] {P : ExtendedGroupElement} {Q : Fp × Fp}
    (h : Rep P Q) : P.ToBytes = encodeF Q := by
  obtain ⟨hx, hy⟩ := rep_coords h
  simp only [ExtendedGroupElement.ToBytes, hx, hy, FeIsNegative, FeToBytes_val, encodeF]

theorem scalarMult_L_basePoint :
    (scalarMult 256 L basePoint).X = 0
      ∧ (scalarMult 256 L basePoint).Y = (scalarMult 256 L basePoint).Z := by
  decide!

theorem smul_L_baseF [Fact (Nat.Prime p)] : smul dF L baseF = zero := by
  have h := rep_scalarMult rep_basePoint onCurve_baseF 256 L (by decide)
  obtain ⟨hX, hY⟩ := scalarMult_L_basePoint
  obtain ⟨hz, hx, hy, -⟩ := h
  rw [hX] at hx
  rw [hY] at hy
  have h1 : (smul dF L baseF).1 = 0 := by
    rcases mul_eq_zero.1 hx.symm with h | h
    · exact h
    · exact absurd h hz
  have h2 : (smul dF L baseF).2 = 1 := by
    have : (smul dF L baseF).2 * ((scalarMult 256 L basePoint).Z : Fp)
        = 1 * ((scalarMult 256 L basePoint).Z : Fp) := by rw [← hy, one_mul]
    exact mul_right_cancel₀ hz this
  exact Prod.ext h1 h2

theorem smul_mod_L [Fact (Nat.Prime p)] (n : Nat) : smul dF (n % L) baseF = smul dF n baseF := by
  conv_rhs => rw [← Nat.div_add_mod n L, Nat.mul_comm]
  rw [ed_smul_add complete_dF onCurve_baseF, ed_smul_mul complete_dF onCurve_baseF, smul_L_baseF,
    ed_smul_zero, ed_zero_add]

theorem baseF_ne_zero [Fact (Nat.Prime p)] : baseF ≠ (zero : Fp × Fp) := by
  intro h
  have h1 : ((basePoint.X : Nat) : Fp) = ((0 : Nat) : Fp) := by
    have := congrArg Prod.fst h
    simpa [baseF, zero] using this
  have := eq_of_cast_eq (by decide) (by decide) h1
  revert this
  decide

/-- The base point has order exactly `L`. -/
theorem dvd_of_smul_eq_zero [Fact (Nat.Prime p)] (n : Nat) (h : smul dF n baseF = zero) :
    L ∣ n := by
  rw [← smul_mod_L] at h
  by_contra hnd
  have hr : n % L ≠ 0 := fun h0 => hnd (Nat.dvd_of_mod_eq_zero h0)
  have hlt : n % L < L := Nat.mod_lt _ L_pos
  have hcop : Nat.Coprime (n % L) L :=
    Nat.Coprime.symm ((Nat.Prime.coprime_iff_not_dvd L_prime).2
      (Nat.not_dvd_of_pos_of_lt (Nat.pos_of_ne_zero hr) hlt))
  obtain ⟨s, hs⟩ := Nat.exists_mul_emod_eq_one_of_coprime hcop (by decide : 1 < L)
  apply baseF_ne_zero
  rw [← ed_smul_one (d := dF) baseF, ← hs, smul_mod_L, Nat.mul_comm,
    ed_smul_mul complete_dF onCurve_baseF, h, ed_smul_zero]

end edwards25519

/-! ## Square roots in the prime field, as the decoding of a point computes them -/

namespace edwards25519

open Edwards

theorem sq_eq_sq_cases {F : Type} [Field F] {a b : F} (h : a ^ 2 = b ^ 2) : a = b ∨ a = -b := by
  have h2 : (a - b) * (a + b) = 0 := by linear_combination h
  rcases mul_eq_zero.1 h2 with h3 | h3
  · left; linear_combination h3
  · right; linear_combination h3

/-- The candidate root `β = (u v^7)^N v^3 u` of `u / v`, for `x^2 v = u`: either
`v β^2 = u` and `β = ± x`, or `v β^2 = -u ≠ u` and `β i = ± x`. -/
theorem sqrt_candidate [Fact (Nat.Prime p)] (x u v i : Fp) (N : Nat)
    (hN : 4 * (2 * N + 1) = p - 1) (hi : i ^ 2 = -1) (hv : v ≠ 0) (hxv : x ^ 2 * v = u) :
    ((((v ^ 3) ^ 2 * v * u) ^ N * v ^ 3 * u) ^ 2 * v - u = 0
        ∧ ((((v ^ 3) ^ 2 * v * u) ^ N * v ^ 3 * u) = x
          ∨ (((v ^ 3) ^ 2 * v * u) ^ N * v ^ 3 * u) = -x))
    ∨ ((((v ^ 3) ^ 2 * v * u) ^ N * v ^ 3 * u) ^ 2 * v - u ≠ 0
        ∧ (((v ^ 3) ^ 2 * v * u) ^ N * v ^ 3 * u) ^ 2 * v + u = 0
        ∧ ((((v ^ 3) ^ 2 * v * u) ^ N * v ^ 3 * u) * i = x
          ∨ (((v ^ 3) ^ 2 * v * u) ^ N * v ^ 3 * u) * i = -x)) := by
  generalize hβ : ((v ^ 3) ^ 2 * v * u) ^ N * v ^ 3 * u = β
  have ht : (v ^ 3) ^ 2 * v * u = (x * v ^ 4) ^ 2 := by rw [← hxv]; ring
  have hχ : β ^ 2 * v = (x * v ^ 4) ^ (2 * (2 * N + 1)) * u := by
    rw [← hβ, pow_mul, ← ht]
    ring
  by_cases hx : x = 0
  · left
    have hu : u = 0 := by rw [← hxv, hx]; ring
    have hb : β = 0 := by rw [← hβ, hu]; ring
    rw [hb, hu, hx]
    exact ⟨by ring, Or.inl rfl⟩
  · have hw : x * v ^ 4 ≠ 0 := mul_ne_zero hx (pow_ne_zero _ hv)
    have hu : u ≠ 0 := by rw [← hxv]; exact mul_ne_zero (pow_ne_zero _ hx) hv
    have h1 : ((x * v ^ 4) ^ (2 * (2 * N + 1))) ^ 2 = 1 := by
      rw [← pow_mul]
      have e : 2 * (2 * N + 1) * 2 = p - 1 := by omega
      rw [e]
      exact ZMod.pow_card_sub_one_eq_one hw
    rcases sq_eq_sq_cases (h1.trans (one_pow 2).symm) with h | h
    · left
      rw [h, one_mul] at hχ
      refine ⟨by rw [hχ]; ring, ?_⟩
      apply sq_eq_sq_cases
      apply mul_right_cancel₀ hv
      rw [hχ, hxv]
    · right
      rw [h] at hχ
      refine ⟨?_, by rw [hχ]; ring, ?_⟩
      · rw [hχ]
        intro h0
        have : (2 : Fp) * u = 0 := by linear_combination -h0
        rcases mul_eq_zero.1 this with h2 | h2
        · exact two_ne_zero_Fp h2
        · exact hu h2
      · apply sq_eq_sq_cases
        apply mul_right_cancel₀ hv
        rw [hxv, mul_pow, hi]
        linear_combination -hχ

end edwards25519

/-! ## Decoding the encoding of a point -/

namespace edwards25519

open Edwards

theorem byte_and_one (b : Byte) : (b &&& 1).val = b.val % 2 := by
  revert b; decide

theorem FeIsNegative_val (n : Nat) : (FeIsNegative n).val = n % p % 2 := by
  rw [FeIsNegative, byte_and_one, FeToBytes, leBytes_get]
  simp only [Fin.val_zero, pow_zero, Nat.div_one]
  omega

theorem cast_val [Fact (Nat.Prime p)] (q : Fp) : ((q.val : Nat) : Fp) = q :=
  ZMod.natCast_zmod_val q

theorem FeIsNonZero_eq_one_iff (f : Nat) : FeIsNonZero f = 1 ↔ (f : Fp) ≠ 0 := by
  rw [FeIsNonZero, Ne, ZMod.natCast_zmod_eq_zero_iff_dvd, Nat.dvd_iff_mod_eq_zero]
  by_cases h : f % p = 0 <;> simp [h]

/-- The sign correction at the end of the decoding yields the point with the encoded
parity. -/
theorem fix_sign [Fact (Nat.Prime p)] (x : Fp) (X : Nat) (hX : X < p)
    (h : (X : Fp) = x ∨ (X : Fp) = -x) :
    (if FeIsNegative X ≠ FeIsNegative x.val then FeNeg X else X) = x.val := by
  have hp_odd : p % 2 = 1 := by decide
  have hxlt := val_lt x
  by_cases hx0 : x = 0
  · have hX0 : X = x.val := eq_val_of_cast_eq hX (by rcases h with h | h <;> simp [h, hx0])
    rw [hX0, if_neg (by simp)]
  rcases h with h | h
  · have hX0 : X = x.val := eq_val_of_cast_eq hX h
    rw [hX0, if_neg (by simp)]
  · have hX0 : X = (-x).val := eq_val_of_cast_eq hX h
    haveI : NeZero p := ⟨Nat.pos_iff_ne_zero.1 p_pos⟩
    rw [ZMod.neg_val, if_neg hx0] at hX0
    have hxpos : 0 < x.val := by
      rcases Nat.eq_zero_or_pos x.val with h0 | h0
      · exact absurd ((ZMod.val_eq_zero x).1 h0) hx0
      · exact h0
    have hne : FeIsNegative X ≠ FeIsNegative x.val := by
      intro he
      have := congrArg Fin.val he
      rw [FeIsNegative_val, FeIsNegative_val, Nat.mod_eq_of_lt hX, Nat.mod_eq_of_lt hxlt] at this
      omega
    rw [if_pos hne, FeNeg, Nat.mod_eq_of_lt hX, hX0]
    have : p - (p - x.val) = x.val := by omega
    rw [this, Nat.mod_eq_of_lt hxlt]

theorem FromBytes_of_onCurve [Fact (Nat.Prime p)] (s : Bytes 32) (Q : Fp × Fp)
    (hQ : OnCurve dF Q) (hY : FeFromBytes s = Q.2.val)
    (ht : s.get 31 >>> 7 = FeIsNegative Q.1.val) :
    ∃ P, ExtendedGroupElement.FromBytes s = some P ∧ Rep P Q := by
  obtain ⟨x, y⟩ := Q
  simp only at hY ht
  have hxv : x ^ 2 * (y ^ 2 * dF + 1) = y ^ 2 - 1 := by
    rw [OnCurve] at hQ
    linear_combination -hQ
  have hv : y ^ 2 * dF + 1 ≠ 0 := by
    intro h0
    have hu : y ^ 2 - 1 = 0 := by rw [← hxv, h0, mul_zero]
    apply dF_not_square (SqrtM1 : Fp)
    rw [sqrtM1_sq]
    linear_combination hu * dF - h0
  have key := sqrt_candidate x (y ^ 2 - 1) (y ^ 2 * dF + 1) (SqrtM1 : Fp) (2 ^ 252 - 3)
    (by decide) sqrtM1_sq hv hxv
  rw [ExtendedGroupElement.FromBytes]
  simp only [hY, ht]
  set un := FeSub (FeSquare (ZMod.val y)) FeOne with hun
  set vn := FeAdd (FeMul (FeSquare (ZMod.val y)) d) FeOne with hvn
  set βn := FeMul (FeMul (fePow22523 (FeMul (FeMul (FeSquare (FeMul (FeSquare vn) vn)) vn) un))
    (FeMul (FeSquare vn) vn)) un with hβn
  have cu : (un : Fp) = y ^ 2 - 1 := by
    rw [hun, cast_FeSub, cast_FeSquare, cast_val, FeOne, Nat.cast_one]
  have cv : (vn : Fp) = y ^ 2 * dF + 1 := by
    rw [hvn, cast_FeAdd, cast_FeMul, cast_FeSquare, cast_val, FeOne, Nat.cast_one, dF]
  have cβ : (βn : Fp) = (((y ^ 2 * dF + 1) ^ 3) ^ 2 * (y ^ 2 * dF + 1) * (y ^ 2 - 1)) ^ (2 ^ 252 - 3)
      * (y ^ 2 * dF + 1) ^ 3 * (y ^ 2 - 1) := by
    rw [hβn]
    simp only [cast_FeMul, cast_FeSquare, cast_fePow22523, cu, cv]
    generalize 2 ^ 252 - 3 = N
    ring
  have c1 : ((FeSub (FeMul (FeSquare βn) vn) un : Nat) : Fp)
      = (βn : Fp) ^ 2 * (y ^ 2 * dF + 1) - (y ^ 2 - 1) := by
    rw [cast_FeSub, cast_FeMul, cast_FeSquare, cu, cv]
  have c2 : ((FeAdd (FeMul (FeSquare βn) vn) un : Nat) : Fp)
      = (βn : Fp) ^ 2 * (y ^ 2 * dF + 1) + (y ^ 2 - 1) := by
    rw [cast_FeAdd, cast_FeMul, cast_FeSquare, cu, cv]
  rw [← cβ] at key
  have hrep : ∀ X : Nat, X = x.val →
      Rep ⟨X, y.val, FeOne, FeMul X y.val⟩ (x, y) := by
    intro X hX
    subst hX
    refine ⟨?_, ?_, ?_, ?_⟩
    · simp [FeOne]
    · simp [FeOne, cast_val]
    · simp [FeOne, cast_val]
    · simp [FeOne, cast_FeMul, cast_val]
  rcases key with ⟨k1, k2⟩ | ⟨k1, k2, k3⟩
  · have n1 : ¬ FeIsNonZero (FeSub (FeMul (FeSquare βn) vn) un) = 1 := by
      rw [FeIsNonZero_eq_one_iff, c1]
      exact fun h => h k1
    rw [if_neg n1]
    exact ⟨_, rfl, hrep _ (fix_sign x βn (FeMul_lt _ _) k2)⟩
  · have n1 : FeIsNonZero (FeSub (FeMul (FeSquare βn) vn) un) = 1 := by
      rw [FeIsNonZero_eq_one_iff, c1]
      exact k1
    have n2 : ¬ FeIsNonZero (FeAdd (FeMul (FeSquare βn) vn) un) = 1 := by
      rw [FeIsNonZero_eq_one_iff, c2]
      exact fun h => h k2
    rw [if_pos n1, if_neg n2]
    refine ⟨_, rfl, hrep _ (fix_sign x (FeMul βn SqrtM1) (FeMul_lt _ _) ?_)⟩
    rw [cast_FeMul]
    exact k3

end edwards25519

/-! ## Reading an encoded point -/

namespace edwards25519

open Edwards

theorem byte_and_one_cases (x : Byte) : x &&& 1 = 0 ∨ x &&& 1 = 1 := by
  revert x; decide

theorem byte_xor_shift (b t : Byte) (hb : b.val < 128) (ht : t = 0 ∨ t = 1) :
    (b ^^^ (t <<< 7)).val % 128 = b.val ∧ (b ^^^ (t <<< 7)) >>> 7 = t := by
  have h0 : ∀ b : Byte, b.val < 128 →
      (b ^^^ ((0 : Byte) <<< 7)).val % 128 = b.val ∧ (b ^^^ ((0 : Byte) <<< 7)) >>> 7 = 0 := by
    decide
  have h1 : ∀ b : Byte, b.val < 128 →
      (b ^^^ ((1 : Byte) <<< 7)).val % 128 = b.val ∧ (b ^^^ ((1 : Byte) <<< 7)) >>> 7 = 1 := by
    decide
  rcases ht with rfl | rfl
  · exact h0 b hb
  · exact h1 b hb

theorem leBytes_val_top (q : Fp) : ((leBytes 32 q.val).get 31).val < 128 := by
  rw [← FeToBytes_val]
  exact FeToBytes_top _

theorem FeIsNegative_val_eq (q : Fp) :
    FeIsNegative q.val = (leBytes 32 q.val).get 0 &&& 1 := by
  rw [FeIsNegative, FeToBytes_val]

theorem FeFromBytes_encodeF (Q : Fp × Fp) : FeFromBytes (encodeF Q) = Q.2.val := by
  have hb := leBytes_val_top Q.2
  have hx := (byte_xor_shift _ _ hb (byte_and_one_cases ((leBytes 32 Q.1.val).get 0))).1
  have hs := Bytes.toNat_split_31 (leBytes 32 Q.2.val)
  have hv : (leBytes 32 Q.2.val).toNat = Q.2.val := by
    rw [← FeToBytes_val, FeToBytes_toNat, Nat.mod_eq_of_lt (val_lt _)]
  have hlt := val_lt Q.2
  have hp := p_lt
  rw [FeFromBytes, encodeF, Bytes.toNat_set_31]
  rw [hv] at hs ⊢
  have e : (Q.2.val % 2 ^ 248 + 2 ^ 248 *
      ((leBytes 32 Q.2.val).get 31 ^^^ (((leBytes 32 Q.1.val).get 0 &&& 1) <<< 7)).val)
        % 2 ^ 255 = Q.2.val := by
    omega
  rw [e, Nat.mod_eq_of_lt hlt]

theorem encodeF_sign (Q : Fp × Fp) : (encodeF Q).get 31 >>> 7 = FeIsNegative Q.1.val := by
  rw [encodeF, Mathlib.Vector.get_set_same, FeIsNegative_val_eq]
  exact (byte_xor_shift _ _ (leBytes_val_top Q.2)
    (byte_and_one_cases ((leBytes 32 Q.1.val).get 0))).2

/-- Decoding the encoding of a point of the curve gives back that point. -/
theorem FromBytes_encodeF [Fact (Nat.Prime p)] (Q : Fp × Fp) (hQ : OnCurve dF Q) :
    ∃ P, ExtendedGroupElement.FromBytes (encodeF Q) = some P ∧ Rep P Q :=
  FromBytes_of_onCurve (encodeF Q) Q hQ (FeFromBytes_encodeF Q) (encodeF_sign Q)

end edwards25519

/-! ## When the Edwards verification accepts -/

namespace edwards25519

open Edwards

theorem byte_and_224_of_lt (b : Byte) (h : b.val < 32) : b &&& 224 = 0 := by
  revert b; decide

theorem pow_256_32 : (256 : Nat) ^ 32 = 2 ^ 256 := by decide

theorem rep_scalarMult_bytes [Fact (Nat.Prime p)] {P : ExtendedGroupElement} {Q : Fp × Fp}
    (h : Rep P Q) (c : OnCurve dF Q) (n : Bytes 32) :
    Rep (scalarMult 256 n.toNat P) (smul dF n.toNat Q) :=
  rep_scalarMult h c 256 n.toNat (by rw [← pow_256_32]; exact n.toNat_lt)

/-- `ed25519.Verify` accepts a signature `R ‖ S` for the key that encodes the point `A`
when `S < L` and `R` encodes `h * (-A) + S * B` for the challenge `h`. -/
theorem Verify_accepts [Fact (Nat.Prime p)] (A : Fp × Fp) (hA : OnCurve dF A)
    (m : List Byte) (encR : Bytes 32) (S : Nat) (hS : S < L)
    (hR : encR = encodeF (add dF
      (smul dF ((sha512.Sum512 (encR.toList ++ (encodeF A).toList ++ m)).toNat % L) (neg A))
      (smul dF S baseF))) :
    ed25519.Verify (encodeF A) m (Mathlib.Vector.append encR (leBytes 32 S) : Bytes 64)
      = true := by
  obtain ⟨P, hP, hrep⟩ := FromBytes_encodeF A hA
  have hSn : (leBytes 32 S).toNat = S := by
    rw [Bytes.toNat_leBytes]
    apply Nat.mod_eq_of_lt
    have := L_lt
    have h3 : (2 : Nat) ^ 253 < 256 ^ 32 := by decide
    omega
  have h63 : ¬ (Mathlib.Vector.get (Mathlib.Vector.append encR (leBytes 32 S) : Bytes 64) 63
      &&& 224 ≠ 0) := by
    rw [Bytes.get_append_63]
    have hb : ((leBytes 32 S).get 31).val < 32 := by
      have := mod_L_top_byte S
      rwa [Nat.mod_eq_of_lt hS] at this
    simp [byte_and_224_of_lt _ hb]
  have hs : ∀ hl, (⟨(Mathlib.Vector.append encR (leBytes 32 S) : Bytes 64).toList.drop 32, hl⟩
      : Bytes 32) = leBytes 32 S := fun hl => Bytes.mk_drop_append _ _ hl
  rw [ed25519.Verify, if_neg h63, hP]
  simp only [hs, Bytes.take_append, sha512.New, sha512.digest.Write, sha512.digest.Sum,
    List.nil_append, GeDoubleScalarMultVartime]
  have r1 := rep_scalarMult_bytes (rep_neg hrep) (ed_neg_onCurve hA)
    (ScReduce (sha512.Sum512 (encR.toList ++ (encodeF A).toList ++ m)))
  have r2 := rep_scalarMult_bytes rep_basePoint onCurve_baseF (leBytes 32 S)
  have r3 := rep_geAdd r1 r2 (ed_smul_onCurve complete_dF (ed_neg_onCurve hA) _)
    (ed_smul_onCurve complete_dF onCurve_baseF _)
  rw [rep_ToBytes r3, ScReduce_toNat, hSn, ← hR]
  simp

end edwards25519

/-! ## The round trip -/

namespace ecc

open edwards25519 Edwards

theorem byte_clamp_top (b : Byte) (h : b &&& 0xC0 = 0x40) : 64 ≤ b.val ∧ b.val < 128 := by
  revert b; decide

theorem byte_clamp_low (b : Byte) (h : b &&& 7 = 0) : b.val % 8 = 0 := by
  revert b; decide

theorem Bytes.get_0_val (a : Bytes 32) : (a.get 0).val = a.toNat % 256 := by
  conv_lhs => rw [← leBytes_toNat a]
  rw [leBytes_get]
  simp

theorem clamped_bounds (a : Bytes 32) (h : Clamped a) :
    a.toNat % 8 = 0 ∧ 2 ^ 254 ≤ a.toNat ∧ a.toNat < 2 ^ 255 := by
  obtain ⟨h0, h31⟩ := h
  have l := byte_clamp_low _ h0
  have t := byte_clamp_top _ h31
  have s := a.toNat_split_31
  rw [Bytes.get_0_val] at l
  omega

theorem GeScalarMultBase_clamped (a : Bytes 32) (h : Clamped a) :
    GeScalarMultBase a = scalarMult 256 a.toNat basePoint :=
  GeScalarMultBase_of_lt a (clamped_bounds a h).2.2

theorem clamped_smul_ne_zero [Fact (Nat.Prime p)] (a : Bytes 32) (h : Clamped a) :
    smul dF a.toNat baseF ≠ zero := by
  intro h0
  obtain ⟨k, hk⟩ := dvd_of_smul_eq_zero _ h0
  obtain ⟨b8, blo, bhi⟩ := clamped_bounds a h
  have hk8 : k < 8 := by
    by_contra hge
    have h8 : L * 8 ≤ L * k := Nat.mul_le_mul_left L (Nat.le_of_not_lt hge)
    have hL8 : 2 ^ 255 < L * 8 := by decide
    rw [← hk] at h8
    exact absurd (Nat.lt_of_lt_of_le hL8 h8) (Nat.not_lt.2 (Nat.le_of_lt bhi))
  have hcases : ∀ j : Nat, j < 8 → j ≠ 0 → L * j % 8 ≠ 0 := by decide
  have hk0 : k ≠ 0 := by
    rintro rfl
    rw [Nat.mul_zero] at hk
    rw [hk] at blo
    exact absurd blo (by decide)
  apply hcases k hk8 hk0
  rw [← hk]
  exact b8

theorem y_ne_one_of_ne_zero [Fact (Nat.Prime p)] {Q : Fp × Fp} (hQ : OnCurve dF Q)
    (hne : Q ≠ zero) : Q.2 ≠ 1 := by
  intro hy
  apply hne
  rw [OnCurve, hy] at hQ
  have hd1 : dF + 1 ≠ 0 := by
    intro h0
    apply dF_not_square (SqrtM1 : Fp)
    rw [sqrtM1_sq]
    linear_combination -h0
  have hx2 : Q.1 ^ 2 * (dF + 1) = 0 := by linear_combination -hQ
  have hx : Q.1 = 0 := by
    rcases mul_eq_zero.1 hx2 with h | h
    · exact pow_eq_zero_iff (by decide) |>.1 h
    · exact absurd h hd1
  exact Prod.ext hx hy

/-- The mapper of `verify` inverts the Edwards-to-Montgomery map on the key of a clamped
scalar. -/
theorem specEdY_montgomeryPublicKey [Fact (Nat.Prime p)] (a : Bytes 32) (h : Clamped a) :
    specEdY (montgomeryPublicKey a) = (smul dF a.toNat baseF).2.val := by
  have hrep := rep_scalarMult_bytes rep_basePoint onCurve_baseF a
  have hcur := ed_smul_onCurve complete_dF onCurve_baseF a.toNat
  have hy1 := y_ne_one_of_ne_zero hcur (clamped_smul_ne_zero a h)
  obtain ⟨-, hy⟩ := rep_coords hrep
  generalize smul dF a.toNat baseF = Q at hrep hcur hy1 hy
  have h1y : (1 : Fp) - Q.2 ≠ 0 := fun h0 => hy1 (by linear_combination -h0)
  have hpk : (montgomeryPublicKey a).toNat % 2 ^ 255 % p
      = FeMul (FeAdd FeOne Q.2.val) (FeInvert (FeSub FeOne Q.2.val)) := by
    rw [montgomeryPublicKey, GeScalarMultBase_clamped a h]
    simp only [hy]
    rw [FeToBytes_toNat, Nat.mod_eq_of_lt (FeMul_lt _ _)]
    have := FeMul_lt (FeAdd FeOne Q.2.val) (FeInvert (FeSub FeOne Q.2.val))
    rw [Nat.mod_eq_of_lt (Nat.lt_trans this p_lt), Nat.mod_eq_of_lt this]
  apply eq_val_of_cast_eq (specEdY_lt _)
  rw [specEdY]
  simp only [hpk]
  have h1p : (1 : Nat) % p = 1 := by decide
  have cm1 : ((p - 1 : Nat) : Fp) = -1 := by
    have := cast_p_sub_mod 1
    rwa [h1p, Nat.cast_one] at this
  rw [cast_mod, Nat.cast_mul, cast_FeInvert, Nat.cast_add, Nat.cast_add, cm1, cast_FeMul,
    cast_FeInvert, cast_FeAdd, cast_FeSub, FeOne, Nat.cast_one, cast_val]
  have h2 := two_ne_zero_Fp
  have hu : (1 + Q.2) * (1 - Q.2)⁻¹ + 1 ≠ 0 := by
    intro h0
    apply h2
    field_simp at h0
    linear_combination h0
  have h11 : (1 : Fp) + 1 ≠ 0 := by rw [one_add_one_eq_two]; exact h2
  field_simp
  ring

theorem byte_restore_sign (b t : Byte) (hb : b.val < 128) (ht : t = 0 ∨ t = 1) :
    (b &&& (0x7F : Byte)) ||| ((b ^^^ (t <<< (7 : Byte))) &&& (0x80 : Byte))
      = b ^^^ (t <<< (7 : Byte)) := by
  have h0 : ∀ b : Byte, b.val < 128 →
      (b &&& 0x7F) ||| ((b ^^^ ((0 : Byte) <<< 7)) &&& 0x80) = b ^^^ ((0 : Byte) <<< 7) := by
    decide
  have h1 : ∀ b : Byte, b.val < 128 →
      (b &&& 0x7F) ||| ((b ^^^ ((1 : Byte) <<< 7)) &&& 0x80) = b ^^^ ((1 : Byte) <<< 7) := by
    decide
  rcases ht with rfl | rfl
  · exact h0 b hb
  · exact h1 b hb

/-- For the key of a clamped scalar and a signature that `sign` made with it, the key that
`verify` hands to `ed25519.Verify` is the encoding of `a * BasePoint`. -/
theorem specEdwardsKey_honest [Fact (Nat.Prime p)] (a : Bytes 32) (m : List Byte)
    (z : Bytes 64) (h : Clamped a) :
    specEdwardsKey (montgomeryPublicKey a) (sign a m z) = encodeF (smul dF a.toNat baseF) := by
  have hrep := rep_scalarMult_bytes rep_basePoint onCurve_baseF a
  rw [specEdwardsKey, specEdY_montgomeryPublicKey a h, sign_get_63,
    GeScalarMultBase_clamped a h, rep_ToBytes hrep]
  simp only [encodeF, Mathlib.Vector.get_set_same]
  rw [byte_restore_sign _ _ (leBytes_val_top _) (byte_and_one_cases _)]

/-- The verification equation in the group: `h * (-(a * B)) + ((h a + r) mod L) * B = r * B`. -/
theorem verification_equation [Fact (Nat.Prime p)] (a h r : Nat) :
    add dF (smul dF h (neg (smul dF a baseF))) (smul dF ((h * a + r) % L) baseF)
      = smul dF r baseF := by
  rw [smul_mod_L, ed_smul_add complete_dF onCurve_baseF, ed_smul_neg,
    ← ed_smul_mul complete_dF onCurve_baseF,
    ed_add_neg_cancel_left complete_dF (ed_smul_onCurve complete_dF onCurve_baseF _)
      (ed_smul_onCurve complete_dF onCurve_baseF _)]

theorem specEncodedR_eq [Fact (Nat.Prime p)] (a : Bytes 32) (m : List Byte) (z : Bytes 64) :
    specEncodedR a m z = encodeF (smul dF (specNonce a m z) baseF) := by
  have hlt : specNonce a m z < 2 ^ 256 := by
    have h1 : specNonce a m z < L := Nat.mod_lt _ L_pos
    have h2 := L_lt
    have h3 : (2 : Nat) ^ 253 < 2 ^ 256 := by decide
    omega
  rw [specEncodedR]
  exact rep_ToBytes (rep_scalarMult rep_basePoint onCurve_baseF 256 _ hlt)

theorem verify_sign [Fact (Nat.Prime p)] (a : Bytes 32) (m : List Byte) (z : Bytes 64)
    (h : Clamped a) : (verify (montgomeryPublicKey a) m (sign a m z)).1 = true := by
  have hrep := rep_scalarMult_bytes rep_basePoint onCurve_baseF a
  have hcur := ed_smul_onCurve complete_dF onCurve_baseF a.toNat
  have hch : (sha512.Sum512 ((specEncodedR a m z).toList
      ++ (encodeF (smul dF a.toNat baseF)).toList ++ m)).toNat % L = specChallenge a m z := by
    rw [specChallenge, GeScalarMultBase_clamped a h, rep_ToBytes hrep]
  have hR : specEncodedR a m z = encodeF (add dF
      (smul dF ((sha512.Sum512 ((specEncodedR a m z).toList
        ++ (encodeF (smul dF a.toNat baseF)).toList ++ m)).toNat % L)
        (neg (smul dF a.toNat baseF)))
      (smul dF ((specChallenge a m z * a.toNat + specNonce a m z) % L) baseF)) := by
    rw [hch, verification_equation]
    exact specEncodedR_eq a m z
  have key := Verify_accepts (smul dF a.toNat baseF) hcur m (specEncodedR a m z)
    ((specChallenge a m z * a.toNat + specNonce a m z) % L) (Nat.mod_lt _ L_pos) hR
  have e := congrArg Prod.fst (verify_eq (montgomeryPublicKey a) m (sign a m z))
  rw [e]
  simp only
  rw [specEdwardsKey_honest a m z h, clearTopBit_sign]
  exact key

/-- The field element of the mapper satisfies `edY * (montX + 1) = montX - 1` modulo `p`
whenever `montX + 1` is not zero modulo `p`. -/
theorem specEdY_mul [Fact (Nat.Prime p)] (pk : Bytes 32)
    (h : (pk.toNat % 2 ^ 255 % p + 1) % p ≠ 0) :
    specEdY pk * (pk.toNat % 2 ^ 255 % p + 1) % p = (pk.toNat % 2 ^ 255 % p + (p - 1)) % p := by
  apply eq_of_cast_eq (Nat.mod_lt _ p_pos) (Nat.mod_lt _ p_pos)
  have hne : ((pk.toNat % 2 ^ 255 % p + 1 : Nat) : Fp) ≠ 0 := by
    rw [Ne, ZMod.natCast_zmod_eq_zero_iff_dvd, Nat.dvd_iff_mod_eq_zero]
    exact h
  rw [cast_mod, cast_mod, Nat.cast_mul, specEdY, cast_mod, Nat.cast_mul, cast_FeInvert,
    mul_assoc, inv_mul_cancel₀ hne, mul_one]

end ecc

/-! ## The mapper as a map of the field -/

namespace ecc

open edwards25519

theorem edY_lt (u : Nat) : edY u < p := Nat.mod_lt _ p_pos

theorem cast_edY [Fact (Nat.Prime p)] (u : Nat) :
    ((edY u : Nat) : Fp) = ((u : Fp) - 1) * ((u : Fp) + 1)⁻¹ := by
  simp only [edY]
  rw [cast_FeMul, cast_FeInvert, cast_FeSub, cast_FeAdd, FeOne, Nat.cast_one]

theorem cast_specMontX [Fact (Nat.Prime p)] (y : Nat) :
    ((specMontX y : Nat) : Fp) = (1 + (y : Fp)) * (1 - (y : Fp))⁻¹ := by
  rw [specMontX, cast_FeMul, cast_FeInvert, cast_FeSub, cast_FeAdd, FeOne, Nat.cast_one]

theorem cast_ne_one {y : Nat} (h : y % p ≠ 1) : (y : Fp) ≠ 1 := by
  intro h1
  apply h
  apply eq_of_cast_eq (Nat.mod_lt _ p_pos) (by decide)
  rw [cast_mod, h1, Nat.cast_one]

theorem cast_ne_neg_one {u : Nat} (h : u % p ≠ p - 1) : (u : Fp) + 1 ≠ 0 := by
  intro h1
  apply h
  apply eq_of_cast_eq (Nat.mod_lt _ p_pos) (by decide)
  have h1p : (1 : Nat) % p = 1 := by decide
  have cm1 : ((p - 1 : Nat) : Fp) = -1 := by
    have := cast_p_sub_mod 1
    rwa [h1p, Nat.cast_one] at this
  rw [cast_mod, cm1]
  linear_combination h1

/-- The mapper of `verify` undoes the Edwards-to-Montgomery map. -/
theorem edY_specMontX [Fact (Nat.Prime p)] (y : Nat) (h : y % p ≠ 1) :
    edY (specMontX y) = y % p := by
  apply eq_of_cast_eq (edY_lt _) (Nat.mod_lt _ p_pos)
  rw [cast_edY, cast_specMontX, cast_mod]
  have hy : (1 : Fp) - (y : Fp) ≠ 0 := fun h0 => cast_ne_one h (by linear_combination -h0)
  have h2 := two_ne_zero_Fp
  have hu : (1 + (y : Fp)) * (1 - (y : Fp))⁻¹ + 1 ≠ 0 := by
    intro h0
    apply h2
    field_simp at h0
    linear_combination h0
  have h11 : (1 : Fp) + 1 ≠ 0 := by rw [one_add_one_eq_two]; exact h2
  field_simp
  ring

/-- The mapper of `verify` is one-to-one away from `-1`. -/
theorem edY_injective [Fact (Nat.Prime p)] (u v : Nat) (hu : u % p ≠ p - 1)
    (hv : v % p ≠ p - 1) (h : edY u = edY v) : u % p = v % p := by
  apply eq_of_cast_eq (Nat.mod_lt _ p_pos) (Nat.mod_lt _ p_pos)
  rw [cast_mod, cast_mod]
  have hc := congrArg (Nat.cast : Nat → Fp) h
  rw [cast_edY, cast_edY] at hc
  have hu1 := cast_ne_neg_one hu
  have hv1 := cast_ne_neg_one hv
  have h2 := two_ne_zero_Fp
  field_simp at hc
  have h3 : (2 : Fp) * ((u : Fp) - (v : Fp)) = 0 := by linear_combination hc
  rcases mul_eq_zero.1 h3 with h4 | h4
  · exact absurd h4 h2
  · exact sub_eq_zero.1 h4

/-- The mapper of `verify` never gives `1`. -/
theorem edY_ne_one [Fact (Nat.Prime p)] (u : Nat) : edY u ≠ 1 := by
  intro h
  have hc := congrArg (Nat.cast : Nat → Fp) h
  rw [cast_edY, Nat.cast_one] at hc
  have h2 := two_ne_zero_Fp
  by_cases hu : (u : Fp) + 1 = 0
  · rw [hu, inv_zero, mul_zero] at hc
    exact zero_ne_one hc
  · field_simp at hc
    apply h2
    linear_combination -hc

end ecc

/-! ## The two hash inputs of `sign` -/

namespace ecc

open edwards25519

theorem nonceInput_eq (a : Bytes 32) (m : List Byte) (z : Bytes 64) :
    nonceInput a m z = diversifier.toList ++ a.toList ++ m ++ z.toList := by
  simp only [nonceInput, sha512.New, sha512.digest.Write, List.nil_append]

theorem challengeInput_eq (R A : Bytes 32) (m : List Byte) :
    challengeInput R A m = R.toList ++ A.toList ++ m := by
  simp only [challengeInput, sha512.New, sha512.digest.Write, sha512.digest.Reset,
    List.nil_append]

/-- The two digests of `sign` are taken over `nonceInput` and `challengeInput`. -/
theorem sign_inputs (a : Bytes 32) (m : List Byte) (z : Bytes 64) :
    sign a m z =
      (((GeScalarMultBase (ScReduce (sha512.Sum512 (nonceInput a m z)))).ToBytes.append
        (ScMulAdd
          (ScReduce (sha512.Sum512 (challengeInput
            (GeScalarMultBase (ScReduce (sha512.Sum512 (nonceInput a m z)))).ToBytes
            (GeScalarMultBase a).ToBytes m)))
          a (ScReduce (sha512.Sum512 (nonceInput a m z)))) : Bytes 64).set 63
        ((ScMulAdd
          (ScReduce (sha512.Sum512 (challengeInput
            (GeScalarMultBase (ScReduce (sha512.Sum512 (nonceInput a m z)))).ToBytes
            (GeScalarMultBase a).ToBytes m)))
          a (ScReduce (sha512.Sum512 (nonceInput a m z)))).get 31
          ||| ((GeScalarMultBase a).ToBytes.get 31 &&& 0x80))) := by
  rw [nonceInput_eq, challengeInput_eq]
  simp only [sign, sha512.New, sha512.digest.Write, sha512.digest.Reset, sha512.digest.Sum,
    List.nil_append, Bytes.get_append_63]

/-- The low 255 bits of an encoded point are a canonical residue. -/
theorem ToBytes_low (P : ExtendedGroupElement) : P.ToBytes.toNat % 2 ^ 255 < p := by
  simp only [ExtendedGroupElement.ToBytes]
  rw [Bytes.toNat_set_31]
  have hx := (byte_xor_shift _ _ (FeToBytes_top (FeMul P.Y (FeInvert P.Z)))
    (byte_and_one_cases ((FeToBytes (FeMul P.X (FeInvert P.Z))).get 0))).1
  rw [← FeIsNegative] at hx
  have hs := Bytes.toNat_split_31 (FeToBytes (FeMul P.Y (FeInvert P.Z)))
  have hv := FeToBytes_toNat (FeMul P.Y (FeInvert P.Z))
  have hlt := Nat.mod_lt (FeMul P.Y (FeInvert P.Z)) p_pos
  have hb := ((FeToBytes (FeMul P.Y (FeInvert P.Z))).get 31 ^^^
    (FeIsNegative (FeMul P.X (FeInvert P.Z)) <<< 7)).isLt
  omega

theorem diversifier_low : diversifier.toNat % 2 ^ 255 = 2 ^ 255 - 2 := by decide

/-- No point encoding equals the diversifier. -/
theorem ToBytes_ne_diversifier (P : ExtendedGroupElement) : P.ToBytes ≠ diversifier := by
  intro h
  have h1 := ToBytes_low P
  rw [h, diversifier_low] at h1
  exact absurd h1 (by decide)

theorem list_take_32_append (v : Bytes 32) (l : List Byte) : (v.toList ++ l).take 32 = v.toList :=
  List.take_left' v.toList_length

theorem nonceInput_take (a : Bytes 32) (m : List Byte) (z : Bytes 64) :
    (nonceInput a m z).take 32 = diversifier.toList := by
  rw [nonceInput_eq, List.append_assoc, List.append_assoc, list_take_32_append]

theorem challengeInput_take (R A : Bytes 32) (m : List Byte) :
    (challengeInput R A m).take 32 = R.toList := by
  rw [challengeInput_eq, List.append_assoc, list_take_32_append]

/-- The nonce input determines the scalar, the message and the seed. -/
theorem nonceInput_inj (a a' : Bytes 32) (m m' : List Byte) (z z' : Bytes 64)
    (h : nonceInput a m z = nonceInput a' m' z') : a = a' ∧ m = m' ∧ z = z' := by
  rw [nonceInput_eq, nonceInput_eq, List.append_assoc, List.append_assoc, List.append_assoc,
    List.append_assoc] at h
  have h1 := List.append_cancel_left h
  have h2 := List.append_inj h1 (by rw [a.toList_length, a'.toList_length])
  have h3 := List.append_inj' h2.2 (by rw [z.toList_length, z'.toList_length])
  exact ⟨Mathlib.Vector.eq _ _ h2.1, h3.1, Mathlib.Vector.eq _ _ h3.2⟩

theorem byte_or_and_E0 (a b : Byte) (h : a.val < 32) :
    (a ||| (b &&& 0x80)) &&& 0xE0 = b &&& 0x80 ∧ (a ||| (b &&& 0x80)) &&& 0x60 = 0 := by
  have h0 : ∀ a : Byte, a.val < 32 → (a ||| 0) &&& 0xE0 = 0 ∧ (a ||| 0) &&& 0x60 = 0 := by
    decide
  have h1 : ∀ a : Byte, a.val < 32 →
      (a ||| 0x80) &&& 0xE0 = 0x80 ∧ (a ||| 0x80) &&& 0x60 = 0 := by
    decide
  rcases byte_and_80_cases b with hb | hb <;> rw [hb]
  · exact h0 a h
  · exact h1 a h

/-- Outside the precondition of the fixed-base multiplication: for the array `00 .. 00 90`
the top digit is `9`, the multiplication returns the neutral element, and `sign` takes the
sign bit `0` from its encoding. -/
theorem sign_unclampedKey :
    unclampedKey.get 31 = 0x90 ∧
    (GeScalarMultBase unclampedKey).ToBytes = ExtendedGroupElement.Zero.ToBytes ∧
    (sign unclampedKey exampleMessage exampleSeed).get 63 = 1 := by
  decide!

end ecc

/-! ## The claims -/

namespace ecc

open edwards25519

/-- C1. Round trip: for every clamped private scalar `a`, every message and every seed,
`verify` accepts the signature exactly as `sign` returned it, under the public key that is
the Montgomery `u`-coordinate `(1 + y) / (1 - y)` of `a * BasePoint`. -/
theorem sign_verify_round_trip (a : Bytes 32) (m : List Byte) (z : Bytes 64)
    (h : Clamped a) : (verify (montgomeryPublicKey a) m (sign a m z)).1 = true := by
  haveI : Fact (Nat.Prime p) := ⟨p_prime⟩
  exact verify_sign a m z h

theorem sign_verify_round_trip_witness :
    Clamped exampleKey ∧
    (verify (montgomeryPublicKey exampleKey) exampleMessage
      (sign exampleKey exampleMessage exampleSeed)).1 = true :=
  ⟨by decide, sign_verify_round_trip exampleKey exampleMessage exampleSeed (by decide)⟩

/-- C2 (the code differs). `verify` writes to the caller's signature array: on the
signature that `sign` returns for `exampleKey`, byte 63 is `138` before the call and `10`
after it, and the call returns `true`. -/
theorem verify_clears_caller_top_bit :
    sign exampleKey exampleMessage exampleSeed = exampleSignature ∧
    montgomeryPublicKey exampleKey = examplePublicKey ∧
    exampleSignature.get 63 = 138 ∧
    (verify examplePublicKey exampleMessage exampleSignature).1 = true ∧
    (verify examplePublicKey exampleMessage exampleSignature).2.get 63 = 10 := by
  decide!

/-- C3. Sign-bit embedding: the top bit of byte 63 of the signature equals the top bit of
byte 31 of the encoding `A` that `sign` computes from `a` by the fixed-base multiplication,
whether that bit is `1` or `0`; the `OR` of the code acts as an overwrite because the
scalar `S` never reaches that bit.  For `a[31] <= 127`, so for every clamped private
scalar, that `A` is the encoding of `a * BasePoint`. -/
theorem sign_embeds_sign_bit (a : Bytes 32) (m : List Byte) (z : Bytes 64) :
    (sign a m z).get 63 &&& 0x80 = (GeScalarMultBase a).ToBytes.get 31 &&& 0x80 ∧
    ((a.get 31).val ≤ 127 →
      (sign a m z).get 63 &&& 0x80
        = (scalarMult 256 a.toNat basePoint).ToBytes.get 31 &&& 0x80) := by
  refine ⟨sign_get_63 a m z, fun h => ?_⟩
  rw [sign_get_63, GeScalarMultBase_of_lt a (a.toNat_lt_of_get_31 h)]

/-- C4. Signature layout: bytes 0..31 are `EncodedR = encode(rReduced * BasePoint)`, and
bytes 32..63 with the top bit of byte 63 cleared are the little-endian encoding of
`(hReduced * a + rReduced) mod L`, where `hReduced = Hash(EncodedR ‖ A ‖ m) mod L` is
hashed from a fresh state, so without any input of the nonce hash, and `A` is the encoding
that `sign` computes from `a` by the fixed-base multiplication.  For `a[31] <= 127`, so
for every clamped private scalar, that `A` is the encoding of `a * BasePoint`. -/
theorem sign_layout (a : Bytes 32) (m : List Byte) (z : Bytes 64) :
    (sign a m z).toList.take 32 = (specEncodedR a m z).toList ∧
    (clearTopBit (sign a m z)).toList.drop 32
      = leList 32 ((specChallenge a m z * a.toNat + specNonce a m z) % L) ∧
    specChallenge a m z
      = (sha512.Sum512 ((specEncodedR a m z).toList
          ++ (GeScalarMultBase a).ToBytes.toList ++ m)).toNat % L ∧
    ((a.get 31).val ≤ 127 →
      (GeScalarMultBase a).ToBytes = (scalarMult 256 a.toNat basePoint).ToBytes) := by
  refine ⟨sign_take a m z, ?_, rfl, fun h => ?_⟩
  · rw [clearTopBit_sign, Bytes.drop_append]
    rfl
  · rw [GeScalarMultBase_of_lt a (a.toNat_lt_of_get_31 h)]

/-- C5. Nonce derivation: the nonce of `sign` is `Hash(D ‖ a ‖ m ‖ z) mod L`, hashed in
that order, with `D` the byte `0xFE` followed by 31 bytes `0xFF`: the first half of the
signature encodes that multiple of the base point, and the scalar `S` is the challenge
times `a` plus that nonce modulo `L`. -/
theorem sign_nonce (a : Bytes 32) (m : List Byte) (z : Bytes 64) :
    diversifier.toList = 0xFE :: List.replicate 31 0xFF ∧
    (sign a m z).toList.take 32
      = (scalarMult 256
          ((sha512.Sum512 (diversifier.toList ++ a.toList ++ m ++ z.toList)).toNat % L)
          basePoint).ToBytes.toList ∧
    (sign a m z).toList.take 32
      = (GeScalarMultBase (ScReduce
          (sha512.Sum512 (diversifier.toList ++ a.toList ++ m ++ z.toList)))).ToBytes.toList ∧
    scalarS (sign a m z)
      = (specChallenge a m z * a.toNat
          + (sha512.Sum512 (diversifier.toList ++ a.toList ++ m ++ z.toList)).toNat % L)
        % L := by
  refine ⟨diversifier_toList, ?_, ?_, ?_⟩
  · rw [sign_take, specEncodedR, specNonce, diversifier_toList]
  · rw [sign_take, ScReduce, GeScalarMultBase_mod_L, specEncodedR, specNonce,
      diversifier_toList]
  · rw [scalarS_sign, specNonce, diversifier_toList]

/-- C6. Verifier as mapper plus delegation: `verify` is the Edwards verification of the
signature with the top bit of byte 63 cleared, against the canonical encoding of
`edY = (montX - 1) * invert(montX + 1) mod p` whose top bit is set equal to the top bit of
`sig[63]`; the encoding of `edY` has its top bit clear before the sign bit is OR-ed in, so
the top bit of the key is exactly the signature's; and `edY * (montX + 1) = montX - 1`
modulo `p` when `montX + 1` is not zero. -/
theorem verify_is_mapped_edwards_verify (pk : Bytes 32) (m : List Byte) (sig : Bytes 64) :
    (verify pk m sig).1 = ed25519.Verify (specEdwardsKey pk sig) m (clearTopBit sig) ∧
    (FeToBytes (specEdY pk)).get 31 &&& 0x80 = 0 ∧
    (specEdwardsKey pk sig).get 31 &&& 0x80 = sig.get 63 &&& 0x80 ∧
    ((pk.toNat % 2 ^ 255 % p + 1) % p ≠ 0 →
      specEdY pk * (pk.toNat % 2 ^ 255 % p + 1) % p
        = (pk.toNat % 2 ^ 255 % p + (p - 1)) % p) := by
  haveI : Fact (Nat.Prime p) := ⟨p_prime⟩
  refine ⟨verify_result pk m sig, byte_and_80_of_lt _ (FeToBytes_top _), ?_,
    specEdY_mul pk⟩
  rw [specEdwardsKey, Mathlib.Vector.get_set_same, byte_and_7F_or_and_80]

/-- C7. The top bit of the public key is ignored: flipping the top bit of byte 31 of the
key does not change the result of `verify`. -/
theorem verify_ignores_key_top_bit (pk : Bytes 32) (m : List Byte) (sig : Bytes 64) :
    (verify (pk.set 31 (pk.get 31 ^^^ 0x80)) m sig).1 = (verify pk m sig).1 := by
  rw [verify, verify, Mathlib.Vector.get_set_same, Bytes.set_set, byte_xor_80_and_7F]

/-- C8 (counterexample). For the key that encodes `montX = p - 1`, the empty message and
the signature made of the encoding of the neutral element and the scalar `0` with the top
bit of byte 63 set, `verify` returns `true`. -/
theorem verify_accepts_excluded_key :
    excludedKey.toNat % 2 ^ 255 % p = p - 1 ∧
    (verify excludedKey [] forgedSignature).1 = true := by
  decide!

/-- C8 (amended). For a key with `montX = p - 1` the inversion receives `0` and returns
`0`, so `edY = 0` and `verify` is the Edwards verification against the encoding of
`y = 0` with the sign bit of the signature; nothing rejects that key. -/
theorem verify_excluded_input (pk : Bytes 32) (m : List Byte) (sig : Bytes 64)
    (h : pk.toNat % 2 ^ 255 % p = p - 1) :
    specEdY pk = 0 ∧
    (verify pk m sig).1
      = ed25519.Verify ((leBytes 32 0).set 31 (sig.get 63 &&& 0x80)) m (clearTopBit sig) := by
  refine ⟨specEdY_excluded pk h, ?_⟩
  rw [verify_result, specEdwardsKey_excluded pk sig h]

theorem verify_excluded_input_witness :
    excludedKey.toNat % 2 ^ 255 % p = p - 1 ∧
    specEdY excludedKey = 0 ∧
    (verify excludedKey [] forgedSignature).1
      = ed25519.Verify ((leBytes 32 0).set 31 (forgedSignature.get 63 &&& 0x80)) []
          (clearTopBit forgedSignature) :=
  ⟨by decide!, verify_excluded_input excludedKey [] forgedSignature (by decide!)⟩

/-- C10 (counterexample). The signature of `exampleKey` verifies under its public key and
also under the different key that has the top bit of byte 31 set. -/
theorem verify_accepts_other_key :
    (verify examplePublicKey exampleMessage exampleSignature).1 = true ∧
    examplePublicKeyTopBit ≠ examplePublicKey ∧
    (verify examplePublicKeyTopBit exampleMessage exampleSignature).1 = true := by
  decide!

/-- C10 (amended). `verify` depends on the public key only through the field element
`montX` that its low 255 bits denote: a key `pk'` that denotes the same field element as
`pk` (such as `pk` with its top bit flipped) gives the same result, so a signature that
verifies under `pk` verifies under that different key too. -/
theorem verify_same_field_element (pk pk' : Bytes 32) (m : List Byte) (sig : Bytes 64)
    (h : pk'.toNat % 2 ^ 255 % p = pk.toNat % 2 ^ 255 % p)
    (hv : (verify pk m sig).1 = true) :
    (verify pk' m sig).1 = true := by
  rw [verify_result] at hv ⊢
  rw [specEdwardsKey_congr pk pk' sig h]
  exact hv

theorem verify_same_field_element_witness :
    examplePublicKeyTopBit.toNat % 2 ^ 255 % p = examplePublicKey.toNat % 2 ^ 255 % p ∧
    (verify examplePublicKey exampleMessage exampleSignature).1 = true ∧
    (verify examplePublicKeyTopBit exampleMessage exampleSignature).1 = true :=
  ⟨by decide!, by decide!,
    verify_same_field_element examplePublicKey examplePublicKeyTopBit exampleMessage
      exampleSignature (by decide!) (by decide!)⟩

end ecc

/-! ## The claims on hash inputs, the mapper and repeated calls -/

namespace ecc

open edwards25519

/-- C11. Determinism of `sign`: two calls with byte-identical private scalar, message and
seed return byte-identical signatures of 64 bytes; the three parameters are all that the
result is computed from. -/
theorem sign_deterministic (a a' : Bytes 32) (m m' : List Byte) (z z' : Bytes 64)
    (ha : a.toList = a'.toList) (hm : m = m') (hz : z.toList = z'.toList) :
    (sign a m z).toList = (sign a' m' z').toList ∧ (sign a m z).toList.length = 64 := by
  have h1 : a = a' := Mathlib.Vector.eq _ _ ha
  have h2 : z = z' := Mathlib.Vector.eq _ _ hz
  subst h1 hm h2
  exact ⟨rfl, Mathlib.Vector.toList_length _⟩

theorem sign_deterministic_witness :
    exampleKey.toList = (leBytes 32 exampleKey.toNat).toList ∧
    (sign exampleKey exampleMessage exampleSeed).toList
      = (sign (leBytes 32 exampleKey.toNat) exampleMessage
          (Mathlib.Vector.replicate 64 0)).toList ∧
    (sign exampleKey exampleMessage exampleSeed).toList.length = 64 :=
  ⟨by decide, sign_deterministic exampleKey (leBytes 32 exampleKey.toNat) exampleMessage
    exampleMessage exampleSeed (Mathlib.Vector.replicate 64 0) (by decide) rfl rfl⟩

/-- C12 (the code differs). A second `verify` on the same array does not repeat the first:
`exampleSignature` is what `sign` returns for `exampleKey`, whose Edwards encoding has its
sign bit set; the first call returns `true` and clears the top bit of byte 63 in the
caller's array, and the second call, on the array as the first one left it, returns
`false`. -/
theorem verify_second_call_rejects :
    sign exampleKey exampleMessage exampleSeed = exampleSignature ∧
    (GeScalarMultBase exampleKey).ToBytes.get 31 &&& 0x80 = 0x80 ∧
    (verify examplePublicKey exampleMessage exampleSignature).1 = true ∧
    (verify examplePublicKey exampleMessage
      (verify examplePublicKey exampleMessage exampleSignature).2).1 = false := by
  decide!

/-- C13. Domain separation: the low 255 bits of the diversifier are `2^255 - 2`, which is
not below `p`, so no canonical encoding of a field element has that value; no point
encoding equals the diversifier; and the bytes hashed for the nonce never equal bytes
hashed for a challenge, whatever the encoded point, key and message of the challenge. -/
theorem nonce_input_ne_challenge_input (a : Bytes 32) (m : List Byte) (z : Bytes 64)
    (y : FieldElement) (P : ExtendedGroupElement) (A : Bytes 32) (m' : List Byte) :
    diversifier.toList = 0xFE :: List.replicate 31 0xFF ∧
    p ≤ diversifier.toNat % 2 ^ 255 ∧
    (FeToBytes y).toNat ≠ diversifier.toNat % 2 ^ 255 ∧
    P.ToBytes ≠ diversifier ∧
    nonceInput a m z = diversifier.toList ++ a.toList ++ m ++ z.toList ∧
    challengeInput P.ToBytes A m' = P.ToBytes.toList ++ A.toList ++ m' ∧
    nonceInput a m z ≠ challengeInput P.ToBytes A m' := by
  refine ⟨diversifier_toList, by decide, ?_, ToBytes_ne_diversifier P, nonceInput_eq a m z,
    challengeInput_eq _ A m', ?_⟩
  · rw [FeToBytes_toNat, diversifier_low]
    have h1 := Nat.mod_lt y p_pos
    have h2 : p < 2 ^ 255 - 2 := by decide
    omega
  · intro h
    have h1 := congrArg (List.take 32) h
    rw [nonceInput_take, challengeInput_take] at h1
    exact ToBytes_ne_diversifier P (Mathlib.Vector.eq _ _ h1.symm)

/-- C14. The mapper of `verify` inverts the Edwards-to-Montgomery map and is one-to-one:
for `y` other than `1` modulo `p` it sends `(1 + y) * invert(1 - y)` back to `y`; on field
elements other than `-1` modulo `p` equal results come from equal field elements only; and
its result is never `1`. -/
theorem edY_inverts_and_is_injective (y u v : FieldElement) (hy : y % p ≠ 1)
    (hu : u % p ≠ p - 1) (hv : v % p ≠ p - 1) :
    edY (specMontX y) = y % p ∧ (edY u = edY v → u % p = v % p) ∧ edY u ≠ 1 := by
  haveI : Fact (Nat.Prime p) := ⟨p_prime⟩
  exact ⟨edY_specMontX y hy, edY_injective u v hu hv, edY_ne_one u⟩

theorem edY_inverts_and_is_injective_witness :
    (2 % p ≠ 1 ∧ 3 % p ≠ p - 1 ∧ 4 % p ≠ p - 1) ∧
    edY (specMontX 2) = 2 % p ∧ (edY 3 = edY 4 → 3 % p = 4 % p) ∧ edY 3 ≠ 1 :=
  ⟨by decide, edY_inverts_and_is_injective 2 3 4 (by decide) (by decide) (by decide)⟩

/-- C15. Canonical scalar of produced signatures: bytes 32..63 of the result of `sign`,
with the top bit of byte 63 cleared and read as a little-endian integer, are below `L`;
the bits `0x40` and `0x20` of byte 63 are `0`; and of the three bits of byte 63 above bit
252 of the scalar only the top one can be set, where it is the sign bit of the encoding
`A` that `sign` computes from `a` by the fixed-base multiplication. -/
theorem sign_scalar_canonical (a : Bytes 32) (m : List Byte) (z : Bytes 64) :
    leNat ((clearTopBit (sign a m z)).toList.drop 32) < L ∧
    scalarS (sign a m z) < L ∧
    (sign a m z).get 63 &&& 0x60 = 0 ∧
    (sign a m z).get 63 &&& 0xE0 = (GeScalarMultBase a).ToBytes.get 31 &&& 0x80 := by
  have hb := byte_or_and_E0
    ((leBytes 32 ((specChallenge a m z * a.toNat + specNonce a m z) % L)).get 31)
    ((GeScalarMultBase a).ToBytes.get 31) (mod_L_top_byte _)
  refine ⟨?_, ?_, ?_, ?_⟩
  · rw [clearTopBit_sign, Bytes.drop_append]
    show (leBytes 32 _).toNat < L
    rw [mod_L_toNat]
    exact Nat.mod_lt _ L_pos
  · rw [scalarS_sign]
    exact Nat.mod_lt _ L_pos
  · rw [sign_eq, Mathlib.Vector.get_set_same]
    exact hb.2
  · rw [sign_eq, Mathlib.Vector.get_set_same]
    exact hb.1

/-- C16. The nonce hash input is injective: `D ‖ a ‖ m ‖ z = D ‖ a' ‖ m' ‖ z'` only if
`a = a'`, `m = m'` and `z = z'`, for 32-byte scalars and 64-byte seeds and messages of any
lengths; so two distinct messages under the same scalar and seed are hashed from distinct
inputs. -/
theorem nonce_input_injective (a a' : Bytes 32) (m m' : List Byte) (z z' : Bytes 64) :
    nonceInput a m z = diversifier.toList ++ a.toList ++ m ++ z.toList ∧
    (nonceInput a m z = nonceInput a' m' z' → a = a' ∧ m = m' ∧ z = z') ∧
    (m ≠ m' → nonceInput a m z ≠ nonceInput a m' z) :=
  ⟨nonceInput_eq a m z, nonceInput_inj a a' m m' z z',
    fun hm h => hm (nonceInput_inj a a m m' z z h).2.1⟩

end ecc
